import Mathlib

/-!
Verification of slog-sampling: the counter and the bucket table of `counters.go`.

A shallow embedding of `counter.Inc`, `newCounters` and `counters.get`, executed
sequentially, and of interleavings of the atomic operations of concurrent calls of
`counter.Inc`, with the properties of the specification stated over them.

* `int64` values are `Int`s kept in range by `wrapInt64`, `uint64` values are
  `Nat`s kept in range by `wrapUint64`.
* A `*counter` is a `CounterPtr`; the counters it may point to live in a `Heap`.
* A Go run-time panic is the `Except.error` result of an operation.
-/

namespace SlogSampling

/-! ## Machine integers, time -/

/-- Value of an `int64` computation after two's-complement wrap-around. -/
def wrapInt64 (x : Int) : Int := (x + 2 ^ 63) % 2 ^ 64 - 2 ^ 63

/-- Value of a `uint64` computation after wrap-around. -/
def wrapUint64 (x : Nat) : Nat := x % 2 ^ 64

/-- A `time.Time`: the instant, in nanoseconds relative to the Unix epoch. -/
structure Time where
  nanos : Int
deriving DecidableEq, Repr

/-- `t.UnixNano()`: the instant as an `int64` (Go computes it in `int64` arithmetic). -/
def Time.UnixNano (t : Time) : Int := wrapInt64 t.nanos

/-- A `time.Duration`, an `int64` count of nanoseconds. -/
structure Duration where
  ns : Int
deriving DecidableEq, Repr

/-- `d.Nanoseconds()`: the duration as an `int64`. -/
def Duration.Nanoseconds (d : Duration) : Int := wrapInt64 d.ns

/-! ## The counter (`counters.go`, lines 13-35) -/

set_option linter.dupNamespace false in
/-- The struct `counter`: `resetAt atomic.Int64`, `counter atomic.Uint64`. -/
structure counter where
  resetAt : Int
  counter : Nat
deriving DecidableEq, Repr

/-- The zero value of `counter`, as every allocation produces it. -/
def freshCounter : counter := ⟨0, 0⟩

/-- `c.resetAt.Load()`. -/
def resetAtLoad (c : counter) : Int := c.resetAt

/-- `c.counter.Add(delta)`: adds with wrap-around, returns the new value. -/
def counterAdd (c : counter) (delta : Nat) : counter × Nat :=
  let v := wrapUint64 (c.counter + delta)
  ({ c with counter := v }, v)

/-- `c.counter.Store(v)`. -/
def counterStore (c : counter) (v : Nat) : counter :=
  { c with counter := wrapUint64 v }

/-- `c.resetAt.CompareAndSwap(old, new)`: swaps when the stored value is `old`. -/
def resetAtCompareAndSwap (c : counter) (old new : Int) : counter × Bool :=
  if c.resetAt = old then ({ c with resetAt := new }, true) else (c, false)

/-- `counter.Inc` run without interference: the new state of the counter and the
returned value. -/
def counter.Inc (c : SlogSampling.counter) (t : Time) (tick : Duration) :
    SlogSampling.counter × Nat :=
  let tn := t.UnixNano
  let resetAfter := resetAtLoad c
  if resetAfter > tn then
    counterAdd c 1
  else
    let c1 := counterStore c 1
    let newResetAfter := wrapInt64 (tn + tick.Nanoseconds)
    match resetAtCompareAndSwap c1 resetAfter newResetAfter with
    | (c2, false) => counterAdd c2 1
    | (c2, true) => (c2, 1)

/-- Sequential calls `Inc(t, tick)`, one per timestamp of the list, on one counter:
the final state and the returned values in call order. -/
def IncSeq (c : counter) (tick : Duration) : List Time → counter × List Nat
  | [] => (c, [])
  | t :: ts =>
    let r := c.Inc t tick
    let rest := IncSeq r.1 tick ts
    (rest.1, r.2 :: rest.2)

/-- The values `1, 2, ..., n`. -/
def oneTo (n : Nat) : List Nat := (List.range n).map (fun i => i + 1)

/-- Whether `Inc` at `t` takes the reset branch (line 21 is false) in state `c`. -/
def takesReset (c : counter) (t : Time) : Bool := !decide (resetAtLoad c > t.UnixNano)

/-- For sequential calls as in `IncSeq`: whether each call takes the reset branch. -/
def resetSeq (c : counter) (tick : Duration) : List Time → List Bool
  | [] => []
  | t :: ts => takesReset c t :: resetSeq (c.Inc t tick).1 tick ts

/-! ## The bucket table (`counters.go`, lines 11, 37-80) -/

/-- Run-time panics of Go that the operations below can raise. -/
inductive Panic
  | nilDereference
  | nilMapAssignment
  | indexOutOfRange
deriving DecidableEq, Repr

/-- Slots per level: `const countersPerLevel = 4096`. -/
def countersPerLevel : Nat := 4096

/-- A `slog.Level`, an `int`. -/
abbrev Level := Int

/-- `slog.LevelDebug`. -/
def LevelDebug : Level := -4
/-- `slog.LevelInfo`. -/
def LevelInfo : Level := 0
/-- `slog.LevelWarn`. -/
def LevelWarn : Level := 4
/-- `slog.LevelError`. -/
def LevelError : Level := 8

/-- Whether a level is one of the four that have an array of their own in `counters`. -/
def wellKnown (lvl : Level) : Bool :=
  lvl == LevelDebug || lvl == LevelInfo || lvl == LevelWarn || lvl == LevelError

/-- The fields of a `slog.Record` that are plain data; `get` reads `Message` only. -/
structure Record where
  Time : SlogSampling.Time
  Message : String
  Level : SlogSampling.Level
  PC : Nat

/-- A `*counter`: nil, or the address `&a[n]` of element `n` of the array of counters
allocated at heap address `arr`. The source allocates counters in arrays only. -/
inductive CounterPtr
  | nil
  | elem (arr : Nat) (n : Fin countersPerLevel)
deriving DecidableEq, Repr

/-- A `*[countersPerLevel]counter`: nil, or the heap address of an allocated array. -/
inductive ArrayPtr
  | nil
  | addr (a : Nat)
deriving DecidableEq, Repr

/-- The allocated `[countersPerLevel]counter` arrays, by address (position in the list). -/
structure Heap where
  arrays : List (Fin countersPerLevel → counter)

/-- The heap before anything is allocated. -/
def Heap.empty : Heap := ⟨[]⟩

/-- Reading the counter behind a pointer; nil (or an address never allocated) panics. -/
def Heap.read (h : Heap) : CounterPtr → Except Panic counter
  | .nil => .error .nilDereference
  | .elem a n =>
    match h.arrays[a]? with
    | some arr => .ok (arr n)
    | none => .error .nilDereference

/-- Writing the counter behind a pointer; nil (or an address never allocated) panics. -/
def Heap.write (h : Heap) (p : CounterPtr) (c : counter) : Except Panic Heap :=
  match p with
  | .nil => .error .nilDereference
  | .elem a n =>
    match h.arrays[a]? with
    | some arr => .ok ⟨h.arrays.set a (Function.update arr n c)⟩
    | none => .error .nilDereference

/-- The allocation `&[countersPerLevel]counter{}`: a new array of zero-valued counters. -/
def Heap.allocArray (h : Heap) : Heap × ArrayPtr :=
  (⟨h.arrays ++ [fun _ => freshCounter]⟩, .addr h.arrays.length)

/-- A `map[slog.Level]*[countersPerLevel]counter`: `none` is the nil map, `some m` an
allocated map whose entries are the levels where `m` is `some`. -/
abbrev LevelMap := Option (Level → Option ArrayPtr)

/-- The struct `counters` (the lock `mu` has no content in a sequential run). -/
structure counters where
  customLevelCounter : LevelMap
  debugCtr : Fin countersPerLevel → CounterPtr
  infoCtr : Fin countersPerLevel → CounterPtr
  warnCtr : Fin countersPerLevel → CounterPtr
  errCtr : Fin countersPerLevel → CounterPtr

/-- The function `newCounters`: four arrays of `*counter` from empty composite literals
(every element the zero value nil); `customLevelCounter` is not mentioned in the
literal and keeps its zero value, the nil map. -/
def newCounters : counters :=
  { customLevelCounter := none
    debugCtr := fun _ => .nil
    infoCtr := fun _ => .nil
    warnCtr := fun _ => .nil
    errCtr := fun _ => .nil }

/-- Indexing `a[n]` of a fixed-size array, with Go's bounds check. -/
def index {α : Type} (a : Fin countersPerLevel → α) (n : Nat) : Except Panic α :=
  if hn : n < countersPerLevel then .ok (a ⟨n, hn⟩) else .error .indexOutOfRange

/-- The read `v, ok := m[lvl]` of a map: on the nil map and on a missing key it gives the
zero value (the nil pointer) and `ok = false`. -/
def mapLookup (m : LevelMap) (lvl : Level) : ArrayPtr × Bool :=
  match m with
  | none => (.nil, false)
  | some f =>
    match f lvl with
    | some v => (v, true)
    | none => (.nil, false)

/-- The assignment `m[lvl] = v`: panics on the nil map. -/
def mapAssign (m : LevelMap) (lvl : Level) (v : ArrayPtr) : Except Panic LevelMap :=
  match m with
  | none => .error .nilMapAssignment
  | some f => .ok (some (Function.update f lvl (some v)))

/-- The address `&p[n]` of an element behind a pointer to an array. -/
def elemAddr (p : ArrayPtr) (n : Nat) : Except Panic CounterPtr :=
  match p with
  | .nil => .error .nilDereference
  | .addr a => if hn : n < countersPerLevel then .ok (.elem a ⟨n, hn⟩) else .error .indexOutOfRange

/-- The bucket index computed at the head of `get`: `fnv32a(key) % countersPerLevel`,
the hash being a `uint32`. -/
def bucket (fnv32a : String → Nat) (key : String) : Nat :=
  let hash := fnv32a key % 2 ^ 32
  hash % countersPerLevel

/-- The method `counters.get`, run sequentially. The helper `fnv32a` is not among the
source files and is a parameter (any function to `uint32`). The result is the table,
the heap (both possibly changed by the default case) and the returned `*counter`. -/
def counters.get (fnv32a : String → Nat) (cs : counters) (h : Heap) (lvl : Level)
    (record : Record) : Except Panic (counters × Heap × CounterPtr) :=
  let key := record.Message
  let n := bucket fnv32a key
  if lvl = LevelDebug then
    (index cs.debugCtr n).map fun p => (cs, h, p)
  else if lvl = LevelInfo then
    (index cs.infoCtr n).map fun p => (cs, h, p)
  else if lvl = LevelWarn then
    (index cs.warnCtr n).map fun p => (cs, h, p)
  else if lvl = LevelError then
    (index cs.errCtr n).map fun p => (cs, h, p)
  else
    let ok := (mapLookup cs.customLevelCounter lvl).2
    let alloc : Except Panic (counters × Heap) :=
      if !ok then
        let a := h.allocArray
        (mapAssign cs.customLevelCounter lvl a.2).map fun m =>
          ({ cs with customLevelCounter := m }, a.1)
      else .ok (cs, h)
    alloc.bind fun s =>
      (elemAddr (mapLookup s.1.customLevelCounter lvl).1 n).map fun p => (s.1, s.2, p)

/-- The method `counter.Inc` called through a `*counter`: the receiver is dereferenced by
the first atomic access, so a nil receiver panics. -/
def CounterPtr.Inc (p : CounterPtr) (h : Heap) (t : Time) (tick : Duration) :
    Except Panic (Heap × Nat) :=
  (h.read p).bind fun c =>
    let r := c.Inc t tick
    (h.write p r.1).map fun h1 => (h1, r.2)

/-- One use of the table: `cs.get(lvl, record).Inc(t, tick)`. -/
def getInc (fnv32a : String → Nat) (cs : counters) (h : Heap) (lvl : Level)
    (tick : Duration) (record : Record) (t : Time) :
    Except Panic (counters × Heap × Nat) :=
  (cs.get fnv32a h lvl record).bind fun s =>
    (s.2.2.Inc s.2.1 t tick).map fun r => (s.1, r.1, r.2)

/-- Sequential uses of the table at one level, one per (record, timestamp) of the list:
the final table and heap, and the returned counts in call order. -/
def getIncSeq (fnv32a : String → Nat) (lvl : Level) (tick : Duration) :
    counters → Heap → List (Record × Time) → Except Panic (counters × Heap × List Nat)
  | cs, h, [] => .ok (cs, h, [])
  | cs, h, op :: ops =>
    (getInc fnv32a cs h lvl tick op.1 op.2).bind fun s =>
      (getIncSeq fnv32a lvl tick s.1 s.2.1 ops).map fun r => (r.1, r.2.1, s.2.2 :: r.2.2)

/-- Modelled from the spec: the helper `fnv32a` is missing from the source files; the
spec asks for a stable, order-dependent, non-cryptographic 32-bit hash of the key. This
is the 32-bit FNV-1a hash of the key's bytes, used where a concrete hash is needed. -/
def fnv1a32 (s : String) : Nat :=
  s.toUTF8.data.toList.foldl (fun hash b => ((hash ^^^ b.toNat) * 16777619) % 2 ^ 32) 2166136261

/-- A table as `newCounters` builds it, except that the map is allocated and empty. -/
def countersWithMap : counters :=
  ⟨some (fun _ => none), newCounters.debugCtr, newCounters.infoCtr, newCounters.warnCtr,
    newCounters.errCtr⟩

/-- A record with the given message, logged at the given level and time. -/
def recordOf (msg : String) (lvl : Level) (t : Time) : Record := ⟨t, msg, lvl, 0⟩

/-! ## Reachable states, the reference function, interleaved calls -/

/-- The counter states reached from a fresh counter by sequential calls of `Inc`. -/
inductive Reachable : counter → Prop
  | fresh : Reachable freshCounter
  | step (c : counter) (t : Time) (tick : Duration) :
      Reachable c → Reachable (c.Inc t tick).1

/-- The reference function for a sequential `Inc`, in the words of the specification:
with the window still active add one to the count and return it, otherwise set the
count to 1, the window end to `now + tick` as an `int64`, and return 1. -/
def IncRef (c : counter) (now : Time) (tick : Duration) : counter × Nat :=
  if c.resetAt > now.UnixNano then
    (⟨c.resetAt, (c.counter + 1) % 2 ^ 64⟩, (c.counter + 1) % 2 ^ 64)
  else
    (⟨wrapInt64 (now.UnixNano + tick.Nanoseconds), 1⟩, 1)

/-- Where a call of `Inc` stands: the atomic operation it performs next, or how it
returned. The lines are those of `counters.go`. -/
inductive Pc
  | load
  | addActive
  | store (resetAfter : Int)
  | cas (resetAfter : Int)
  | addLost
  | retActive (r : Nat)
  | retLost (r : Nat)
  | retWon
deriving DecidableEq, Repr

/-- A call `Inc(t, tick)` in progress. -/
structure Call where
  t : Time
  tick : Duration
  pc : Pc
deriving DecidableEq, Repr

/-- The next atomic operation of a call, on the shared counter:
`load` is line 20 with the test of line 21, `addActive` line 22, `store` line 25,
`cas` lines 27-28, `addLost` line 31; `retWon` is the return of line 34. A call that
has returned does nothing. -/
def stepCall (c : counter) (th : Call) : counter × Call :=
  match th.pc with
  | .load =>
    let resetAfter := resetAtLoad c
    if resetAfter > th.t.UnixNano then (c, { th with pc := .addActive })
    else (c, { th with pc := .store resetAfter })
  | .addActive =>
    let r := counterAdd c 1
    (r.1, { th with pc := .retActive r.2 })
  | .store resetAfter => (counterStore c 1, { th with pc := .cas resetAfter })
  | .cas resetAfter =>
    let newResetAfter := wrapInt64 (th.t.UnixNano + th.tick.Nanoseconds)
    match resetAtCompareAndSwap c resetAfter newResetAfter with
    | (c2, false) => (c2, { th with pc := .addLost })
    | (c2, true) => (c2, { th with pc := .retWon })
  | .addLost =>
    let r := counterAdd c 1
    (r.1, { th with pc := .retLost r.2 })
  | .retActive _ => (c, th)
  | .retLost _ => (c, th)
  | .retWon => (c, th)

/-- Whether a call has returned. -/
def Call.returned (th : Call) : Bool :=
  match th.pc with
  | .retActive _ => true
  | .retLost _ => true
  | .retWon => true
  | _ => false

/-- The value a call returned, if it has. -/
def Call.result (th : Call) : Option Nat :=
  match th.pc with
  | .retActive r => some r
  | .retLost r => some r
  | .retWon => some 1
  | _ => none

/-- Concurrent calls on one counter: the shared state and the calls in progress. -/
abbrev Config := counter × List Call

/-- The scheduler lets call number `i` perform its next atomic operation. -/
def stepAt (cfg : Config) (i : Nat) : Config :=
  match cfg.2[i]? with
  | none => cfg
  | some th =>
    let r := stepCall cfg.1 th
    (r.1, cfg.2.set i r.2)

/-- An interleaving: the calls take their atomic steps in the order of the schedule. -/
def run (cfg : Config) (schedule : List Nat) : Config :=
  schedule.foldl stepAt cfg

/-- Whether every call has returned. -/
def finished (cfg : Config) : Bool := cfg.2.all Call.returned

/-- The number of calls that satisfy a test. -/
def countCalls (f : Call → Bool) (calls : List Call) : Nat :=
  (calls.map fun th => if f th then 1 else 0).sum

/-- Whether a call won the compare-and-swap and returned at line 34. -/
def Call.won (th : Call) : Bool :=
  match th.pc with
  | .retWon => true
  | _ => false

/-- A call alone: its next `n` atomic operations. -/
def runSolo (c : counter) (th : Call) : Nat → counter × Call
  | 0 => (c, th)
  | n + 1 =>
    let r := stepCall c th
    runSolo r.1 r.2 n

/-- The atomic operations a call still has to perform at most. -/
def Call.stepsLeft (th : Call) : Nat :=
  match th.pc with
  | .load => 4
  | .store _ => 3
  | .cas _ => 2
  | .addActive => 1
  | .addLost => 1
  | _ => 0

/-- The window end that a call stores when its compare-and-swap succeeds (line 27). -/
def Call.newResetAfter (th : Call) : Int := wrapInt64 (th.t.UnixNano + th.tick.Nanoseconds)

/-- The call stands before the store of line 25. -/
def Call.atStore (th : Call) : Bool :=
  match th.pc with
  | .store _ => true
  | _ => false

/-- The call stands before the compare-and-swap of line 28. -/
def Call.atCas (th : Call) : Bool :=
  match th.pc with
  | .cas _ => true
  | _ => false

/-- The call lost the compare-and-swap and stands before the add of line 31. -/
def Call.atAddLost (th : Call) : Bool :=
  match th.pc with
  | .addLost => true
  | _ => false

/-- The call returned the result of the add of line 31. -/
def Call.lost (th : Call) : Bool :=
  match th.pc with
  | .retLost _ => true
  | _ => false

/-- The call returned the result of the add of line 22. -/
def Call.added (th : Call) : Bool :=
  match th.pc with
  | .retActive _ => true
  | _ => false

/-- What holds throughout an interleaving of `k` calls that all lie inside the active
window ending at `R`, the count having been `c0` at the start: the window end stays,
every call is before its load, before its add or has returned from it, the count is
`c0` plus the number of calls that have returned, and the returned values are distinct
values between `c0 + 1` and the count, the count being one of them. -/
def ActiveInv (R : Int) (c0 k : Nat) (cfg : Config) : Prop :=
  cfg.1.resetAt = R ∧
  cfg.2.length = k ∧
  (∀ th ∈ cfg.2, th.t.UnixNano < R ∧
    (th.pc = .load ∨ th.pc = .addActive ∨ ∃ r, th.pc = .retActive r)) ∧
  cfg.1.counter = c0 + countCalls Call.added cfg.2 ∧
  (∀ (i : Nat) (th : Call) (r : Nat), cfg.2[i]? = some th → th.pc = .retActive r →
    c0 + 1 ≤ r ∧ r ≤ cfg.1.counter) ∧
  (∀ (i j : Nat) (thi thj : Call) (r : Nat), i ≠ j → cfg.2[i]? = some thi →
    cfg.2[j]? = some thj → thi.pc = .retActive r → thj.pc ≠ .retActive r) ∧
  (1 ≤ countCalls Call.added cfg.2 →
    ∃ (i : Nat) (th : Call), cfg.2[i]? = some th ∧ th.pc = .retActive cfg.1.counter)

/-- A call in a race to reset the window that ended at `R`: it loaded `R` at line 20,
found the window expired, and stands before its store, before its compare-and-swap or
before its compensating add, or has returned; the window end it would store is not `R`. -/
def Call.racer (R : Int) (th : Call) : Prop :=
  (th.pc = .store R ∨ th.pc = .cas R ∨ th.pc = .addLost ∨ (∃ r, th.pc = .retLost r) ∨
    th.pc = .retWon) ∧ th.newResetAfter ≠ R

/-- What holds throughout an interleaving of `k` calls racing to reset the window that
ended at `R`: until the first compare-and-swap the window end is `R` and no call has
won or lost, afterwards it is not `R` and one call has won; once a store has happened
the count is between 1 and 1 plus the number of compensating adds made; with at most two
calls it is 1 plus that number once both have stored; a window end other than `R` is
the one stored by a call that won. -/
def RaceInv (R : Int) (k : Nat) (cfg : Config) : Prop :=
  cfg.2.length = k ∧
  (∀ th ∈ cfg.2, Call.racer R th) ∧
  countCalls Call.atStore cfg.2 + countCalls Call.atCas cfg.2 +
    countCalls Call.atAddLost cfg.2 + countCalls Call.lost cfg.2 +
    countCalls Call.won cfg.2 = k ∧
  ((cfg.1.resetAt = R ∧ countCalls Call.won cfg.2 = 0 ∧
      countCalls Call.atAddLost cfg.2 = 0 ∧ countCalls Call.lost cfg.2 = 0) ∨
    (cfg.1.resetAt ≠ R ∧ countCalls Call.won cfg.2 = 1)) ∧
  (countCalls Call.atStore cfg.2 = k ∨
    (1 ≤ cfg.1.counter ∧ cfg.1.counter ≤ 1 + countCalls Call.lost cfg.2)) ∧
  (1 ≤ k → k ≤ 2 → countCalls Call.atStore cfg.2 = 0 →
    cfg.1.counter = 1 + countCalls Call.lost cfg.2) ∧
  (cfg.1.resetAt = R ∨
    ∃ th ∈ cfg.2, th.pc = .retWon ∧ cfg.1.resetAt = th.newResetAfter)

/-! ## Lemmas on the machine integers -/

theorem wrapInt64_of_inRange (x : Int) (h1 : -2 ^ 63 ≤ x) (h2 : x < 2 ^ 63) :
    wrapInt64 x = x := by
  unfold wrapInt64
  omega

theorem wrapInt64_lower (x : Int) : -2 ^ 63 ≤ wrapInt64 x := by
  unfold wrapInt64
  omega

theorem wrapInt64_upper (x : Int) : wrapInt64 x < 2 ^ 63 := by
  unfold wrapInt64
  omega

theorem wrapUint64_lt (x : Nat) : wrapUint64 x < 2 ^ 64 := by
  unfold wrapUint64
  omega

/-! ## Lemmas on `counter.Inc` -/

/-- The branch of `Inc` for a window still active. -/
theorem Inc_of_active (c : counter) (t : Time) (tick : Duration)
    (h : t.UnixNano < c.resetAt) :
    c.Inc t tick = (⟨c.resetAt, wrapUint64 (c.counter + 1)⟩, wrapUint64 (c.counter + 1)) := by
  simp [counter.Inc, resetAtLoad, counterAdd, h]

/-- The branch of `Inc` for a window expired or never started: the compare-and-swap
finds the value loaded at the start of the call and succeeds. -/
theorem Inc_of_expired (c : counter) (t : Time) (tick : Duration)
    (h : c.resetAt ≤ t.UnixNano) :
    c.Inc t tick = (⟨wrapInt64 (t.UnixNano + tick.Nanoseconds), 1⟩, 1) := by
  have h1 : ¬ (c.resetAt > t.UnixNano) := by omega
  simp [counter.Inc, resetAtLoad, counterStore, resetAtCompareAndSwap, h1, wrapUint64]

/-- Every value returned by `Inc` is a `uint64`. -/
theorem Inc_result_lt (c : counter) (t : Time) (tick : Duration) :
    (c.Inc t tick).2 < 2 ^ 64 := by
  by_cases h : t.UnixNano < c.resetAt
  · rw [Inc_of_active c t tick h]
    exact wrapUint64_lt _
  · rw [Inc_of_expired c t tick (by omega)]
    norm_num

theorem IncSeq_length (tick : Duration) (ts : List Time) (c : counter) :
    (IncSeq c tick ts).2.length = ts.length := by
  induction ts generalizing c with
  | nil => rfl
  | cons t ts ih => simp [IncSeq, ih]

theorem IncSeq_result_lt (tick : Duration) (ts : List Time) (c : counter) :
    ∀ r ∈ (IncSeq c tick ts).2, r < 2 ^ 64 := by
  induction ts generalizing c with
  | nil => simp [IncSeq]
  | cons t ts ih =>
    intro r hr
    simp only [IncSeq, List.mem_cons] at hr
    rcases hr with hr | hr
    · rw [hr]
      exact Inc_result_lt c t tick
    · exact ih _ r hr

theorem oneTo_length (n : Nat) : (oneTo n).length = n := by
  simp [oneTo]

theorem mem_oneTo (n : Nat) (hn : 0 < n) : n ∈ oneTo n := by
  unfold oneTo
  rw [List.mem_map]
  exact ⟨n - 1, List.mem_range.mpr (by omega), by omega⟩

/-- Past `2 ^ 64` calls the returned values cannot be `1, ..., N`: the count wraps. -/
theorem IncSeq_ne_oneTo_of_long (tick : Duration) (ts : List Time) (c : counter)
    (h : 2 ^ 64 ≤ ts.length) : (IncSeq c tick ts).2 ≠ oneTo ts.length := by
  intro heq
  have hmem : ts.length ∈ (IncSeq c tick ts).2 := by
    rw [heq]
    exact mem_oneTo _ (by omega)
  have := IncSeq_result_lt tick ts c _ hmem
  omega

/-- Sequential calls inside an active window count on from the stored count. -/
theorem IncSeq_of_active (tick : Duration) (ts : List Time) (c : counter)
    (hact : ∀ t ∈ ts, t.UnixNano < c.resetAt) (hlen : c.counter + ts.length < 2 ^ 64) :
    IncSeq c tick ts =
      (⟨c.resetAt, c.counter + ts.length⟩,
        (List.range ts.length).map (fun i => c.counter + (i + 1))) := by
  induction ts generalizing c with
  | nil => simp [IncSeq]
  | cons t ts ih =>
    have ht : t.UnixNano < c.resetAt := hact t (List.mem_cons_self _ _)
    have hlen1 : c.counter + 1 + ts.length < 2 ^ 64 := by
      simp only [List.length_cons] at hlen
      omega
    have hw : wrapUint64 (c.counter + 1) = c.counter + 1 := by
      unfold wrapUint64
      omega
    simp only [IncSeq, Inc_of_active c t tick ht, hw]
    rw [ih ⟨c.resetAt, c.counter + 1⟩ (fun u hu => hact u (List.mem_cons_of_mem _ hu)) hlen1]
    simp only [List.length_cons, List.range_succ_eq_map, List.map_cons, List.map_map]
    refine Prod.ext ?_ ?_
    · simp only [Nat.add_assoc, Nat.add_comm 1]
    · simp only [List.cons.injEq, Nat.zero_add, true_and]
      apply List.map_congr_left
      intro i _
      simp only [Function.comp, Nat.succ_eq_add_one]
      omega

/-- Sequential calls with a tick that is zero or negative, at non-decreasing timestamps
not before the stored window end and not before the epoch: every call resets. -/
theorem IncSeq_of_nonpos_tick (tick : Duration) (htick : tick.Nanoseconds ≤ 0)
    (ts : List Time) (c : counter)
    (hsorted : (ts.map Time.UnixNano).Sorted (· ≤ ·))
    (hepoch : ∀ t ∈ ts, 0 ≤ t.UnixNano)
    (hc : ∀ t ∈ ts, c.resetAt ≤ t.UnixNano) :
    (IncSeq c tick ts).2 = List.replicate ts.length 1 ∧
      resetSeq c tick ts = List.replicate ts.length true := by
  induction ts generalizing c with
  | nil => simp [IncSeq, resetSeq]
  | cons t ts ih =>
    have ht : c.resetAt ≤ t.UnixNano := hc t (List.mem_cons_self _ _)
    have ht0 : 0 ≤ t.UnixNano := hepoch t (List.mem_cons_self _ _)
    have hup : t.UnixNano < 2 ^ 63 := wrapInt64_upper _
    have hlo : -2 ^ 63 ≤ tick.Nanoseconds := wrapInt64_lower _
    have hw : wrapInt64 (t.UnixNano + tick.Nanoseconds) = t.UnixNano + tick.Nanoseconds :=
      wrapInt64_of_inRange _ (by omega) (by omega)
    simp only [List.map_cons, List.sorted_cons] at hsorted
    have hnext : ∀ u ∈ ts, t.UnixNano + tick.Nanoseconds ≤ u.UnixNano := by
      intro u hu
      have := hsorted.1 u.UnixNano (List.mem_map_of_mem _ hu)
      omega
    have hstep := Inc_of_expired c t tick ht
    have hih := ih ⟨t.UnixNano + tick.Nanoseconds, 1⟩ hsorted.2
      (fun u hu => hepoch u (List.mem_cons_of_mem _ hu)) hnext
    have hreset : takesReset c t = true := by
      simp [takesReset, resetAtLoad]
      omega
    simp only [IncSeq, resetSeq, hstep, hw, hih.1, hih.2, hreset, List.length_cons,
      List.replicate_succ, and_self]

/-- Sequential calls on a fresh counter, all inside the window that the first one starts,
return `1, 2, ..., N` as long as the count does not wrap. -/
theorem IncSeq_fresh_window (tick : Duration) (t1 : Time) (rest : List Time)
    (hepoch : 0 ≤ t1.UnixNano)
    (hno : t1.UnixNano + tick.Nanoseconds < 2 ^ 63)
    (hwin : ∀ t ∈ t1 :: rest,
      t1.UnixNano ≤ t.UnixNano ∧ t.UnixNano < t1.UnixNano + tick.Nanoseconds)
    (hN : (t1 :: rest).length < 2 ^ 64) :
    (IncSeq freshCounter tick (t1 :: rest)).2 = oneTo (t1 :: rest).length := by
  have hlo : -2 ^ 63 ≤ tick.Nanoseconds := wrapInt64_lower _
  have hw : wrapInt64 (t1.UnixNano + tick.Nanoseconds) = t1.UnixNano + tick.Nanoseconds :=
    wrapInt64_of_inRange _ (by omega) hno
  have hstep := Inc_of_expired freshCounter t1 tick hepoch
  simp only [List.length_cons] at hN
  have hrest := IncSeq_of_active tick rest ⟨t1.UnixNano + tick.Nanoseconds, 1⟩
    (fun u hu => (hwin u (List.mem_cons_of_mem _ hu)).2) (by simp only; omega)
  simp only [IncSeq, hstep, hw, hrest, oneTo, List.length_cons, List.range_succ_eq_map,
    List.map_cons, List.map_map, Nat.zero_add, List.cons.injEq, true_and]
  apply List.map_congr_left
  intro i _
  simp only [Function.comp, Nat.succ_eq_add_one]
  omega

/-! ## The counter: the properties of the specification -/

/-- C1, as stated, fails once the count wraps: `2 ^ 64` calls at the epoch with a tick
of one nanosecond satisfy every condition of the claim, and the values returned are not
`1, ..., 2 ^ 64` (each returned value is a `uint64`, below `2 ^ 64`). -/
theorem Inc_same_window_wraps :
    0 < (Duration.mk 1).Nanoseconds ∧
    1 ≤ (List.replicate (2 ^ 64) (Time.mk 0)).length ∧
    0 ≤ (Time.mk 0).UnixNano ∧
    (Time.mk 0).UnixNano + (Duration.mk 1).Nanoseconds < 2 ^ 63 ∧
    (∀ t ∈ List.replicate (2 ^ 64) (Time.mk 0),
      (Time.mk 0).UnixNano ≤ t.UnixNano ∧
        t.UnixNano < (Time.mk 0).UnixNano + (Duration.mk 1).Nanoseconds) ∧
    (IncSeq freshCounter (Duration.mk 1) (List.replicate (2 ^ 64) (Time.mk 0))).2 ≠
      oneTo (List.replicate (2 ^ 64) (Time.mk 0)).length := by
  refine ⟨by decide, ?_, by decide, by decide, ?_, ?_⟩
  · rw [List.length_replicate]
    exact Nat.one_le_two_pow
  · intro t ht
    rw [List.eq_of_mem_replicate ht]
    decide
  · apply IncSeq_ne_oneTo_of_long
    rw [List.length_replicate]

/-- C1, amended: from a fresh counter, for a tick > 0 and `N ≥ 1` timestamps
`t1 :: rest` with `t1` at or after the epoch, `t1 + tick` not overflowing `int64`, every
timestamp in `[t1, t1 + tick)`, and `N < 2 ^ 64`, the `N` sequential calls return
exactly `1, 2, ..., N`. -/
theorem Inc_same_window_counts (tick : Duration) (t1 : Time) (rest : List Time)
    (_htick : 0 < tick.Nanoseconds) (hepoch : 0 ≤ t1.UnixNano)
    (hno : t1.UnixNano + tick.Nanoseconds < 2 ^ 63)
    (hwin : ∀ t ∈ t1 :: rest,
      t1.UnixNano ≤ t.UnixNano ∧ t.UnixNano < t1.UnixNano + tick.Nanoseconds)
    (hN : (t1 :: rest).length < 2 ^ 64) :
    (IncSeq freshCounter tick (t1 :: rest)).2 = oneTo (t1 :: rest).length :=
  IncSeq_fresh_window tick t1 rest hepoch hno hwin hN

/-- C1, amended, at an input: three calls at 0 ns, 5 ns and 999 ns with a tick of 1 µs. -/
theorem Inc_same_window_counts_witness :
    (IncSeq freshCounter ⟨1000⟩ [⟨0⟩, ⟨5⟩, ⟨999⟩]).2 = oneTo [Time.mk 0, ⟨5⟩, ⟨999⟩].length :=
  Inc_same_window_counts ⟨1000⟩ ⟨0⟩ [⟨5⟩, ⟨999⟩] (by decide) (by decide) (by decide)
    (by decide) (by decide)

/-- C2: in any counter state, for a timestamp whose `UnixNano` is at or after the stored
`resetAt` and any tick, a sequential `Inc` returns 1, leaves the count at 1 and sets
`resetAt` to `nowNanos + tick` in `int64` arithmetic. -/
theorem Inc_expired_resets (c : counter) (now : Time) (tick : Duration)
    (h : c.resetAt ≤ now.UnixNano) :
    (c.Inc now tick).2 = 1 ∧ (c.Inc now tick).1.counter = 1 ∧
      (c.Inc now tick).1.resetAt = wrapInt64 (now.UnixNano + tick.Nanoseconds) := by
  rw [Inc_of_expired c now tick h]
  exact ⟨rfl, rfl, rfl⟩

/-- C2 at an input: a window that ended at 1 s, holding a count of 7, and a call at 2 s. -/
theorem Inc_expired_resets_witness :
    (counter.Inc ⟨1000000000, 7⟩ ⟨2000000000⟩ ⟨1000000000⟩).2 = 1 ∧
      (counter.Inc ⟨1000000000, 7⟩ ⟨2000000000⟩ ⟨1000000000⟩).1.counter = 1 ∧
      (counter.Inc ⟨1000000000, 7⟩ ⟨2000000000⟩ ⟨1000000000⟩).1.resetAt =
        wrapInt64 ((Time.mk 2000000000).UnixNano + (Duration.mk 1000000000).Nanoseconds) :=
  Inc_expired_resets ⟨1000000000, 7⟩ ⟨2000000000⟩ ⟨1000000000⟩ (by decide)

/-- C3: on a fresh counter with a tick of one second, five calls at 0 ms return
1, 2, 3, 4, 5, the next call at 1001 ms returns 1 and the next at 1500 ms returns 2. -/
theorem Inc_scenario :
    (IncSeq freshCounter ⟨1000000000⟩
      [⟨0⟩, ⟨0⟩, ⟨0⟩, ⟨0⟩, ⟨0⟩, ⟨1001000000⟩, ⟨1500000000⟩]).2 = [1, 2, 3, 4, 5, 1, 2] := by
  decide

/-- C4, as stated, fails for a timestamp before the epoch: on a fresh counter the call at
-1 ns with a tick of one second returns 1 through the add branch and leaves
`resetAt = 0`, not `nowNanos + tick`. -/
theorem Inc_fresh_before_epoch :
    freshCounter.Inc ⟨-1⟩ ⟨1000000000⟩ = (⟨0, 1⟩, 1) ∧
      (freshCounter.Inc ⟨-1⟩ ⟨1000000000⟩).1.resetAt ≠
        wrapInt64 ((Time.mk (-1)).UnixNano + (Duration.mk 1000000000).Nanoseconds) := by
  decide

/-- C4, amended: on a fresh counter, for every timestamp whose `UnixNano` is at or
after the epoch and every tick, the first `Inc` starts a window: it returns 1 and sets
`resetAt` to `nowNanos + tick` (in `int64` arithmetic), the count being 1. -/
theorem Inc_fresh_starts_window (now : Time) (tick : Duration) (h : 0 ≤ now.UnixNano) :
    (freshCounter.Inc now tick).2 = 1 ∧
      (freshCounter.Inc now tick).1.resetAt = wrapInt64 (now.UnixNano + tick.Nanoseconds) ∧
      (freshCounter.Inc now tick).1.counter = 1 := by
  rw [Inc_of_expired freshCounter now tick h]
  exact ⟨rfl, rfl, rfl⟩

/-- C4, amended, at an input: the first call at 0 ns with a tick of one second. -/
theorem Inc_fresh_starts_window_witness :
    (freshCounter.Inc ⟨0⟩ ⟨1000000000⟩).2 = 1 ∧
      (freshCounter.Inc ⟨0⟩ ⟨1000000000⟩).1.resetAt =
        wrapInt64 ((Time.mk 0).UnixNano + (Duration.mk 1000000000).Nanoseconds) ∧
      (freshCounter.Inc ⟨0⟩ ⟨1000000000⟩).1.counter = 1 :=
  Inc_fresh_starts_window ⟨0⟩ ⟨1000000000⟩ (by decide)

/-- C5, as stated, fails in two ways, each with a tick of zero on a fresh counter and a
non-decreasing sequence of timestamps. Before the epoch: at -5 ns, -5 ns no call takes
the reset branch and the second call returns 2. Beyond the range of `int64`
nanoseconds: at `time.Unix(0, 2 ^ 63 - 1)` and `time.Unix(2 ^ 62, 0)` both `UnixNano`
values are at or after the epoch (`2 ^ 63 - 1` and, wrapped, `0`) but they decrease,
and the second call takes the add branch and returns 2. -/
theorem Inc_nonpos_tick_not_always_reset :
    (Duration.mk 0).Nanoseconds ≤ 0 ∧
    ([Time.mk (-5), Time.mk (-5)].map Time.nanos).Sorted (· ≤ ·) ∧
    resetSeq freshCounter ⟨0⟩ [⟨-5⟩, ⟨-5⟩] = [false, false] ∧
    (IncSeq freshCounter ⟨0⟩ [⟨-5⟩, ⟨-5⟩]).2 = [1, 2] ∧
    ([Time.mk (2 ^ 63 - 1), Time.mk (2 ^ 62 * 1000000000)].map Time.nanos).Sorted (· ≤ ·) ∧
    [Time.mk (2 ^ 63 - 1), Time.mk (2 ^ 62 * 1000000000)].map Time.UnixNano =
      [2 ^ 63 - 1, 0] ∧
    resetSeq freshCounter ⟨0⟩ [⟨2 ^ 63 - 1⟩, ⟨2 ^ 62 * 1000000000⟩] = [true, false] ∧
    (IncSeq freshCounter ⟨0⟩ [⟨2 ^ 63 - 1⟩, ⟨2 ^ 62 * 1000000000⟩]).2 = [1, 2] := by
  refine ⟨by decide, ?_, by decide, by decide, ?_, by decide, by decide, by decide⟩
  · simp
  · simp

/-- C5, amended: from a fresh counter, for every tick ≤ 0 and every sequence of
timestamps whose `UnixNano` values are at or after the epoch (`≥ 0`) and
non-decreasing, every sequential `Inc` takes the reset branch and returns 1. -/
theorem Inc_nonpos_tick_always_resets (tick : Duration) (ts : List Time)
    (htick : tick.Nanoseconds ≤ 0)
    (hsorted : (ts.map Time.UnixNano).Sorted (· ≤ ·))
    (hepoch : ∀ t ∈ ts, 0 ≤ t.UnixNano) :
    resetSeq freshCounter tick ts = List.replicate ts.length true ∧
      (IncSeq freshCounter tick ts).2 = List.replicate ts.length 1 :=
  (IncSeq_of_nonpos_tick tick htick ts freshCounter hsorted hepoch hepoch).symm

/-- C5, amended, at an input: a tick of -1 s and calls at 0 s, 0 s and 2 s. -/
theorem Inc_nonpos_tick_always_resets_witness :
    resetSeq freshCounter ⟨-1000000000⟩ [⟨0⟩, ⟨0⟩, ⟨2000000000⟩] =
        List.replicate [Time.mk 0, ⟨0⟩, ⟨2000000000⟩].length true ∧
      (IncSeq freshCounter ⟨-1000000000⟩ [⟨0⟩, ⟨0⟩, ⟨2000000000⟩]).2 =
        List.replicate [Time.mk 0, ⟨0⟩, ⟨2000000000⟩].length 1 :=
  Inc_nonpos_tick_always_resets ⟨-1000000000⟩ [⟨0⟩, ⟨0⟩, ⟨2000000000⟩] (by decide)
    (by simp [Time.UnixNano, wrapInt64]) (by decide)

/-! ## Lemmas on the bucket table -/

theorem bucket_lt (fnv32a : String → Nat) (key : String) :
    bucket fnv32a key < countersPerLevel := by
  simp only [bucket, countersPerLevel]
  omega

/-- The bucket is the hash modulo the slot count (the slot count divides `2 ^ 32`). -/
theorem bucket_eq_mod (fnv32a : String → Nat) (key : String) :
    bucket fnv32a key = fnv32a key % countersPerLevel := by
  simp only [bucket, countersPerLevel]
  omega

theorem index_of_lt {α : Type} (a : Fin countersPerLevel → α) (n : Nat)
    (hn : n < countersPerLevel) : index a n = .ok (a ⟨n, hn⟩) := by
  simp [index, hn]

theorem elemAddr_of_lt (a n : Nat) (hn : n < countersPerLevel) :
    elemAddr (.addr a) n = .ok (.elem a ⟨n, hn⟩) := by
  simp [elemAddr, hn]

/-- The result of `get` depends on the record through the bucket of its message only. -/
theorem get_eq_of_bucket (fnv32a : String → Nat) (cs : counters) (h : Heap) (lvl : Level)
    (r1 r2 : Record) (hb : bucket fnv32a r1.Message = bucket fnv32a r2.Message) :
    cs.get fnv32a h lvl r1 = cs.get fnv32a h lvl r2 := by
  simp only [counters.get, hb]

/-- At each of the four well-known levels `get` returns the pointer stored in the
slot, leaving table and heap as they are. -/
theorem get_wellKnown (fnv32a : String → Nat) (cs : counters) (h : Heap) (record : Record) :
    cs.get fnv32a h LevelDebug record =
        .ok (cs, h, cs.debugCtr ⟨bucket fnv32a record.Message, bucket_lt _ _⟩) ∧
    cs.get fnv32a h LevelInfo record =
        .ok (cs, h, cs.infoCtr ⟨bucket fnv32a record.Message, bucket_lt _ _⟩) ∧
    cs.get fnv32a h LevelWarn record =
        .ok (cs, h, cs.warnCtr ⟨bucket fnv32a record.Message, bucket_lt _ _⟩) ∧
    cs.get fnv32a h LevelError record =
        .ok (cs, h, cs.errCtr ⟨bucket fnv32a record.Message, bucket_lt _ _⟩) := by
  refine ⟨?_, ?_, ?_, ?_⟩ <;>
    simp [counters.get, index_of_lt _ _ (bucket_lt fnv32a record.Message), Except.map,
      LevelDebug, LevelInfo, LevelWarn, LevelError]

/-- At any other level, on a table whose map is nil, `get` panics in the assignment. -/
theorem get_custom_of_nil_map (fnv32a : String → Nat) (cs : counters) (h : Heap)
    (lvl : Level) (record : Record) (hl : wellKnown lvl = false)
    (hm : cs.customLevelCounter = none) :
    cs.get fnv32a h lvl record = .error .nilMapAssignment := by
  simp only [wellKnown, Bool.or_eq_false_iff, beq_eq_false_iff_ne, ne_eq] at hl
  obtain ⟨⟨⟨h1, h2⟩, h3⟩, h4⟩ := hl
  simp [counters.get, h1, h2, h3, h4, hm, mapLookup, mapAssign, Except.map, Except.bind]

theorem Inc_nil (h : Heap) (t : Time) (tick : Duration) :
    CounterPtr.nil.Inc h t tick = .error .nilDereference := by
  simp [CounterPtr.Inc, Heap.read, Except.bind]

theorem not_wellKnown (lvl : Level) (hl : wellKnown lvl = false) :
    lvl ≠ LevelDebug ∧ lvl ≠ LevelInfo ∧ lvl ≠ LevelWarn ∧ lvl ≠ LevelError := by
  simp only [wellKnown, Bool.or_eq_false_iff, beq_eq_false_iff_ne, ne_eq] at hl
  exact ⟨hl.1.1.1, hl.1.1.2, hl.1.2, hl.2⟩

/-- At a custom level that the map holds, `get` returns the element of the stored
array and changes nothing. -/
theorem get_custom_present (fnv32a : String → Nat) (cs : counters) (h : Heap)
    (lvl : Level) (record : Record) (hl : wellKnown lvl = false)
    (f : Level → Option ArrayPtr) (hm : cs.customLevelCounter = some f)
    (a : Nat) (hf : f lvl = some (.addr a)) :
    cs.get fnv32a h lvl record =
      .ok (cs, h, .elem a ⟨bucket fnv32a record.Message, bucket_lt _ _⟩) := by
  obtain ⟨h1, h2, h3, h4⟩ := not_wellKnown lvl hl
  simp [counters.get, h1, h2, h3, h4, hm, hf, mapLookup, Except.map, Except.bind,
    elemAddr_of_lt _ _ (bucket_lt fnv32a record.Message)]

/-- At a custom level missing from an allocated map, `get` allocates a zeroed array,
binds the level to it and returns its element. -/
theorem get_custom_absent (fnv32a : String → Nat) (cs : counters) (h : Heap)
    (lvl : Level) (record : Record) (hl : wellKnown lvl = false)
    (f : Level → Option ArrayPtr) (hm : cs.customLevelCounter = some f)
    (hf : f lvl = none) :
    cs.get fnv32a h lvl record =
      .ok (⟨some (Function.update f lvl (some (.addr h.arrays.length))),
              cs.debugCtr, cs.infoCtr, cs.warnCtr, cs.errCtr⟩,
           ⟨h.arrays ++ [fun _ => freshCounter]⟩,
           .elem h.arrays.length ⟨bucket fnv32a record.Message, bucket_lt _ _⟩) := by
  obtain ⟨h1, h2, h3, h4⟩ := not_wellKnown lvl hl
  simp [counters.get, h1, h2, h3, h4, hm, hf, mapLookup, mapAssign, Heap.allocArray,
    Except.map, Except.bind, elemAddr_of_lt _ _ (bucket_lt fnv32a record.Message)]

/-- At a custom level bound to the nil pointer, `get` panics. -/
theorem get_custom_nil_array (fnv32a : String → Nat) (cs : counters) (h : Heap)
    (lvl : Level) (record : Record) (hl : wellKnown lvl = false)
    (f : Level → Option ArrayPtr) (hm : cs.customLevelCounter = some f)
    (hf : f lvl = some .nil) :
    cs.get fnv32a h lvl record = .error .nilDereference := by
  obtain ⟨h1, h2, h3, h4⟩ := not_wellKnown lvl hl
  simp [counters.get, h1, h2, h3, h4, hm, hf, mapLookup, elemAddr, Except.map, Except.bind]

/-- Once `get` has returned a pointer for a level and a record, it returns the same
pointer for them on the resulting table, whatever the heap, and changes nothing. -/
theorem get_stable (fnv32a : String → Nat) (cs cs1 : counters) (h h1 : Heap) (lvl : Level)
    (record : Record) (p : CounterPtr)
    (hget : cs.get fnv32a h lvl record = .ok (cs1, h1, p)) (h2 : Heap) :
    cs1.get fnv32a h2 lvl record = .ok (cs1, h2, p) := by
  cases hl : wellKnown lvl with
  | true =>
    simp only [wellKnown, Bool.or_eq_true, beq_iff_eq] at hl
    obtain ⟨g1, g2, g3, g4⟩ := get_wellKnown fnv32a cs h record
    obtain ⟨k1, k2, k3, k4⟩ := get_wellKnown fnv32a cs1 h2 record
    rcases hl with ((hl | hl) | hl) | hl <;> subst hl
    · rw [g1] at hget
      simp only [Except.ok.injEq, Prod.mk.injEq] at hget
      rw [k1, ← hget.1, hget.2.2]
    · rw [g2] at hget
      simp only [Except.ok.injEq, Prod.mk.injEq] at hget
      rw [k2, ← hget.1, hget.2.2]
    · rw [g3] at hget
      simp only [Except.ok.injEq, Prod.mk.injEq] at hget
      rw [k3, ← hget.1, hget.2.2]
    · rw [g4] at hget
      simp only [Except.ok.injEq, Prod.mk.injEq] at hget
      rw [k4, ← hget.1, hget.2.2]
  | false =>
    cases hm : cs.customLevelCounter with
    | none =>
      rw [get_custom_of_nil_map fnv32a cs h lvl record hl hm] at hget
      cases hget
    | some f =>
      cases hf : f lvl with
      | none =>
        rw [get_custom_absent fnv32a cs h lvl record hl f hm hf] at hget
        simp only [Except.ok.injEq, Prod.mk.injEq] at hget
        obtain ⟨hcs, _, hp⟩ := hget
        rw [← hp]
        apply get_custom_present fnv32a cs1 h2 lvl record hl
          (Function.update f lvl (some (.addr h.arrays.length)))
        · rw [← hcs]
        · simp
      | some v =>
        cases v with
        | nil =>
          rw [get_custom_nil_array fnv32a cs h lvl record hl f hm hf] at hget
          cases hget
        | addr a =>
          rw [get_custom_present fnv32a cs h lvl record hl f hm a hf] at hget
          simp only [Except.ok.injEq, Prod.mk.injEq] at hget
          obtain ⟨hcs, _, hp⟩ := hget
          rw [← hp, ← hcs]
          exact get_custom_present fnv32a cs h2 lvl record hl f hm a hf

/-- A write through a readable pointer succeeds, and the pointer then reads the value
written. -/
theorem Heap.read_write (h : Heap) (p : CounterPtr) (c c1 : counter)
    (hr : h.read p = .ok c) :
    ∃ h1, h.write p c1 = .ok h1 ∧ h1.read p = .ok c1 := by
  cases p with
  | nil => simp [Heap.read] at hr
  | elem a n =>
    cases ha : h.arrays[a]? with
    | none => simp [Heap.read, ha] at hr
    | some arr =>
      have hlt : a < h.arrays.length := by
        rw [List.getElem?_eq_some_iff] at ha
        exact ha.1
      refine ⟨⟨h.arrays.set a (Function.update arr n c1)⟩, ?_, ?_⟩
      · simp [Heap.write, ha]
      · simp [Heap.read, List.getElem?_set_self hlt]

/-- The method `Inc` through a readable pointer runs `counter.Inc` on the counter
behind it and stores the new state there. -/
theorem CounterPtr.Inc_of_read (p : CounterPtr) (h : Heap) (c : counter) (t : Time)
    (tick : Duration) (hr : h.read p = .ok c) :
    ∃ h1, p.Inc h t tick = .ok (h1, (c.Inc t tick).2) ∧ h1.read p = .ok (c.Inc t tick).1 := by
  obtain ⟨h1, hw, hr1⟩ := Heap.read_write h p c (c.Inc t tick).1 hr
  exact ⟨h1, by simp [CounterPtr.Inc, hr, hw, Except.bind, Except.map], hr1⟩

/-- A write through a pointer leaves what every other pointer reads as it was. -/
theorem Heap.read_write_ne (h h1 : Heap) (p q : CounterPtr) (c : counter)
    (hpq : q ≠ p) (hw : h.write p c = .ok h1) : h1.read q = h.read q := by
  cases p with
  | nil => simp [Heap.write] at hw
  | elem a n =>
    cases ha : h.arrays[a]? with
    | none => simp [Heap.write, ha] at hw
    | some arr =>
      simp only [Heap.write, ha, Except.ok.injEq] at hw
      subst hw
      cases q with
      | nil => rfl
      | elem b m =>
        by_cases hab : a = b
        · subst hab
          have hlt : a < h.arrays.length := by
            rw [List.getElem?_eq_some_iff] at ha
            exact ha.1
          have hmn : m ≠ n := fun e => hpq (by rw [e])
          simp [Heap.read, List.getElem?_set_self hlt, ha, Function.update_noteq hmn]
        · simp [Heap.read, List.getElem?_set_ne hab]

/-- The method `Inc` through one pointer leaves the counter behind every other pointer
as it was. -/
theorem CounterPtr.Inc_frame (p q : CounterPtr) (h h1 : Heap) (t : Time) (tick : Duration)
    (r : Nat) (hpq : q ≠ p) (hinc : p.Inc h t tick = .ok (h1, r)) : h1.read q = h.read q := by
  unfold CounterPtr.Inc at hinc
  cases hr : h.read p with
  | error e => simp [hr, Except.bind] at hinc
  | ok c =>
    cases hw : h.write p (c.Inc t tick).1 with
    | error e => simp [hr, hw, Except.bind, Except.map] at hinc
    | ok h2 =>
      simp only [hr, hw, Except.bind, Except.map, Except.ok.injEq, Prod.mk.injEq] at hinc
      rw [← hinc.1]
      exact Heap.read_write_ne h h2 p q _ hpq hw

/-- Uses of a table on which `get` keeps returning one readable pointer are the
sequential calls of `counter.Inc` on the counter behind that pointer. -/
theorem getIncSeq_of_stable (fnv32a : String → Nat) (lvl : Level) (tick : Duration)
    (cs : counters) (p : CounterPtr) (ops : List (Record × Time))
    (hget : ∀ op ∈ ops, ∀ h2, cs.get fnv32a h2 lvl op.1 = .ok (cs, h2, p))
    (h : Heap) (c : counter) (hr : h.read p = .ok c) :
    ∃ h1, getIncSeq fnv32a lvl tick cs h ops =
        .ok (cs, h1, (IncSeq c tick (ops.map Prod.snd)).2) ∧
      h1.read p = .ok (IncSeq c tick (ops.map Prod.snd)).1 := by
  induction ops generalizing h c with
  | nil => exact ⟨h, rfl, hr⟩
  | cons op ops ih =>
    obtain ⟨h1, hinc, hr1⟩ := CounterPtr.Inc_of_read p h c op.2 tick hr
    obtain ⟨h2, hseq, hr2⟩ :=
      ih (fun o ho => hget o (List.mem_cons_of_mem _ ho)) h1 (c.Inc op.2 tick).1 hr1
    refine ⟨h2, ?_, ?_⟩
    · simp [getIncSeq, getInc, hget op (List.mem_cons_self _ _) h, hinc, hseq, IncSeq,
        Except.bind, Except.map]
    · simpa [IncSeq] using hr2

/-- Uses of a table at one level with records of one bucket, for which `get` returns a
readable pointer: the returned counts are those of the sequential calls of
`counter.Inc` on the counter behind that pointer. -/
theorem getIncSeq_of_first_get (fnv32a : String → Nat) (lvl : Level) (tick : Duration)
    (cs cs1 : counters) (h h1 : Heap) (p : CounterPtr) (r0 : Record) (c : counter)
    (hget : cs.get fnv32a h lvl r0 = .ok (cs1, h1, p)) (hr : h1.read p = .ok c)
    (ops : List (Record × Time))
    (hb : ∀ op ∈ ops, bucket fnv32a op.1.Message = bucket fnv32a r0.Message) :
    (getIncSeq fnv32a lvl tick cs h ops).map (fun s => s.2.2) =
      .ok (IncSeq c tick (ops.map Prod.snd)).2 := by
  cases ops with
  | nil => rfl
  | cons op ops =>
    have hfirst : cs.get fnv32a h lvl op.1 = .ok (cs1, h1, p) := by
      rw [get_eq_of_bucket fnv32a cs h lvl op.1 r0 (hb op (List.mem_cons_self _ _)), hget]
    have hlater : ∀ o ∈ ops, ∀ h2, cs1.get fnv32a h2 lvl o.1 = .ok (cs1, h2, p) := by
      intro o ho h2
      rw [get_eq_of_bucket fnv32a cs1 h2 lvl o.1 r0 (hb o (List.mem_cons_of_mem _ ho))]
      exact get_stable fnv32a cs cs1 h h1 lvl r0 p hget h2
    obtain ⟨h2, hinc, hr2⟩ := CounterPtr.Inc_of_read p h1 c op.2 tick hr
    obtain ⟨h3, hseq, _⟩ :=
      getIncSeq_of_stable fnv32a lvl tick cs1 p ops hlater h2 (c.Inc op.2 tick).1 hr2
    simp [getIncSeq, getInc, hfirst, hinc, hseq, IncSeq, Except.bind, Except.map]

/-! ## The bucket table: the properties of the specification -/

/-- C6, the code at the failing input: on the table of `newCounters`, at each of the
four well-known levels and for every record, `get` returns the nil pointer (the arrays
hold `*counter` elements that no code allocates), and `Inc` on it panics. -/
theorem newCounters_get_wellKnown_nil (fnv32a : String → Nat) (h : Heap) (record : Record)
    (t : Time) (tick : Duration) :
    newCounters.get fnv32a h LevelDebug record = .ok (newCounters, h, .nil) ∧
    newCounters.get fnv32a h LevelInfo record = .ok (newCounters, h, .nil) ∧
    newCounters.get fnv32a h LevelWarn record = .ok (newCounters, h, .nil) ∧
    newCounters.get fnv32a h LevelError record = .ok (newCounters, h, .nil) ∧
    CounterPtr.nil.Inc h t tick = .error .nilDereference := by
  obtain ⟨g1, g2, g3, g4⟩ := get_wellKnown fnv32a newCounters h record
  exact ⟨g1, g2, g3, g4, Inc_nil h t tick⟩

/-- C7, the code at the failing input: on the table of `newCounters`, at every level
other than debug, info, warn and error and for every record, `get` panics with an
assignment to an entry of the nil map (`newCounters` never makes the map). -/
theorem newCounters_get_custom_panics (fnv32a : String → Nat) (h : Heap) (lvl : Level)
    (record : Record) (hl : wellKnown lvl = false) :
    newCounters.get fnv32a h lvl record = .error .nilMapAssignment :=
  get_custom_of_nil_map fnv32a newCounters h lvl record hl rfl

/-- C7 at an input: the level 1, between info and warn, and the message "boom". -/
theorem newCounters_get_custom_panics_witness :
    newCounters.get fnv1a32 Heap.empty 1 (recordOf "boom" 1 ⟨0⟩) = .error .nilMapAssignment :=
  newCounters_get_custom_panics fnv1a32 Heap.empty 1 (recordOf "boom" 1 ⟨0⟩) (by decide)

/-- C8, the code at the failing input: on the table of `newCounters`, for two records
with the message "boom" that differ in their other fields, `get` at the custom level 1
panics for both and returns no slot, and `get` at the level info returns the nil pointer
for both, the address of no slot. -/
theorem newCounters_get_returns_no_slot :
    (Record.mk ⟨0⟩ "boom" 1 0).Message = (Record.mk ⟨5⟩ "boom" 8 7).Message ∧
    newCounters.get fnv1a32 Heap.empty 1 ⟨⟨0⟩, "boom", 1, 0⟩ = .error .nilMapAssignment ∧
    newCounters.get fnv1a32 Heap.empty 1 ⟨⟨5⟩, "boom", 8, 7⟩ = .error .nilMapAssignment ∧
    newCounters.get fnv1a32 Heap.empty LevelInfo ⟨⟨0⟩, "boom", 1, 0⟩ =
      .ok (newCounters, Heap.empty, .nil) ∧
    newCounters.get fnv1a32 Heap.empty LevelInfo ⟨⟨5⟩, "boom", 8, 7⟩ =
      .ok (newCounters, Heap.empty, .nil) :=
  ⟨rfl,
    get_custom_of_nil_map fnv1a32 newCounters Heap.empty 1 _ (by decide) rfl,
    get_custom_of_nil_map fnv1a32 newCounters Heap.empty 1 _ (by decide) rfl,
    (get_wellKnown fnv1a32 newCounters Heap.empty _).2.1,
    (get_wellKnown fnv1a32 newCounters Heap.empty _).2.1⟩

/-- C9, as stated, fails in two ways, shown for the distinct keys "boom" and "1323",
whose hashes agree modulo 4096. On the table of `newCounters` at the level info, `get`
returns the nil pointer for both keys and the first `Inc` panics, so no count is
returned. On a table with an allocated map at the custom level 1, `2 ^ 64` calls at the
epoch with a tick of one nanosecond do not return `1, ..., 2 ^ 64`: the count wraps. -/
theorem get_collision_count_fails :
    "boom" ≠ "1323" ∧
    fnv1a32 "boom" % countersPerLevel = fnv1a32 "1323" % countersPerLevel ∧
    newCounters.get fnv1a32 Heap.empty LevelInfo (recordOf "boom" LevelInfo ⟨0⟩) =
      .ok (newCounters, Heap.empty, .nil) ∧
    newCounters.get fnv1a32 Heap.empty LevelInfo (recordOf "1323" LevelInfo ⟨5⟩) =
      .ok (newCounters, Heap.empty, .nil) ∧
    getIncSeq fnv1a32 LevelInfo ⟨1000⟩ newCounters Heap.empty
        [(recordOf "boom" LevelInfo ⟨0⟩, ⟨0⟩), (recordOf "1323" LevelInfo ⟨5⟩, ⟨5⟩)] =
      .error .nilDereference ∧
    (getIncSeq fnv1a32 1 ⟨1⟩ countersWithMap Heap.empty
        (List.replicate (2 ^ 64) (recordOf "boom" 1 ⟨0⟩, Time.mk 0))).map (fun s => s.2.2) ≠
      .ok (oneTo (List.replicate (2 ^ 64) (recordOf "boom" 1 ⟨0⟩, Time.mk 0)).length) := by
  have hinfo : ∀ r, newCounters.get fnv1a32 Heap.empty LevelInfo r =
      .ok (newCounters, Heap.empty, .nil) :=
    fun r => (get_wellKnown fnv1a32 newCounters Heap.empty r).2.1
  refine ⟨by decide, by decide, hinfo _, hinfo _, ?_, ?_⟩
  · simp [getIncSeq, getInc, hinfo, Inc_nil, Except.bind, Except.map]
  · have hget := get_custom_absent fnv1a32 countersWithMap Heap.empty 1
      (recordOf "boom" 1 ⟨0⟩) (by decide) (fun _ => none) rfl rfl
    rw [getIncSeq_of_first_get fnv1a32 1 ⟨1⟩ countersWithMap _ Heap.empty _ _
      (recordOf "boom" 1 ⟨0⟩) freshCounter hget (by simp [Heap.read, Heap.empty]) _
      (fun op hop => by rw [List.eq_of_mem_replicate hop])]
    intro heq
    simp only [Except.ok.injEq] at heq
    have hlen : ((List.replicate (2 ^ 64) (recordOf "boom" 1 ⟨0⟩, Time.mk 0)).map
        Prod.snd).length = (List.replicate (2 ^ 64) (recordOf "boom" 1 ⟨0⟩, Time.mk 0)).length :=
      List.length_map _ _
    rw [← hlen] at heq
    refine IncSeq_ne_oneTo_of_long _ _ _ ?_ heq
    rw [List.length_map, List.length_replicate]

/-- C9, amended: on a table, heap and level for which `get` returns for the first key a
pointer to a counter in the fresh state, `get` returns the same result for the second,
distinct key whose hash is equal modulo 4096, and `N` sequential uses `get` then `Inc`,
`1 ≤ N < 2 ^ 64`, split in any way between the two keys, with timestamps inside the
window that the first one starts (as in C1), return `1, 2, ..., N`. -/
theorem get_collision_shares_count (fnv32a : String → Nat) (cs : counters) (h : Heap)
    (lvl : Level) (r1 : Record) (k2 : String) (tick : Duration)
    (op1 : Record × Time) (ops : List (Record × Time))
    (_hk : r1.Message ≠ k2)
    (hcoll : fnv32a r1.Message % countersPerLevel = fnv32a k2 % countersPerLevel)
    (hget : ∃ s, cs.get fnv32a h lvl r1 = .ok s ∧ s.2.1.read s.2.2 = .ok freshCounter)
    (hkeys : ∀ op ∈ op1 :: ops, op.1.Message = r1.Message ∨ op.1.Message = k2)
    (hepoch : 0 ≤ op1.2.UnixNano)
    (hno : op1.2.UnixNano + tick.Nanoseconds < 2 ^ 63)
    (hwin : ∀ op ∈ op1 :: ops,
      op1.2.UnixNano ≤ op.2.UnixNano ∧ op.2.UnixNano < op1.2.UnixNano + tick.Nanoseconds)
    (hN : (op1 :: ops).length < 2 ^ 64) :
    (∀ r2 : Record, r2.Message = k2 → cs.get fnv32a h lvl r2 = cs.get fnv32a h lvl r1) ∧
    (getIncSeq fnv32a lvl tick cs h (op1 :: ops)).map (fun s => s.2.2) =
      .ok (oneTo (op1 :: ops).length) := by
  have hbk : bucket fnv32a k2 = bucket fnv32a r1.Message := by
    rw [bucket_eq_mod, bucket_eq_mod, hcoll]
  obtain ⟨⟨cs1, h1, p⟩, hg, hfresh⟩ := hget
  refine ⟨fun r2 hr2 => get_eq_of_bucket fnv32a cs h lvl r2 r1 (by rw [hr2, hbk]), ?_⟩
  have hb : ∀ op ∈ op1 :: ops, bucket fnv32a op.1.Message = bucket fnv32a r1.Message := by
    intro op hop
    rcases hkeys op hop with e | e
    · rw [e]
    · rw [e, hbk]
  rw [getIncSeq_of_first_get fnv32a lvl tick cs cs1 h h1 p r1 freshCounter hg hfresh _ hb]
  have hwin1 : ∀ t ∈ op1.2 :: ops.map Prod.snd,
      op1.2.UnixNano ≤ t.UnixNano ∧ t.UnixNano < op1.2.UnixNano + tick.Nanoseconds := by
    intro t ht
    rw [← List.map_cons Prod.snd, List.mem_map] at ht
    obtain ⟨op, hop, rfl⟩ := ht
    exact hwin op hop
  have hN1 : (op1.2 :: ops.map Prod.snd).length < 2 ^ 64 := by
    simpa using hN
  have := IncSeq_fresh_window tick op1.2 (ops.map Prod.snd) hepoch hno hwin1 hN1
  simp only [List.map_cons, this, List.length_cons, List.length_map]

/-- C9, amended, at an input: the keys "boom" and "1323" at the custom level 1 of a table
with an allocated map, used at 0 ns, 5 ns and 999 ns with a tick of 1 µs. -/
theorem get_collision_shares_count_witness :
    (∀ r2 : Record, r2.Message = "1323" →
      countersWithMap.get fnv1a32 Heap.empty 1 r2 =
        countersWithMap.get fnv1a32 Heap.empty 1 (recordOf "boom" 1 ⟨0⟩)) ∧
    (getIncSeq fnv1a32 1 ⟨1000⟩ countersWithMap Heap.empty
        [(recordOf "boom" 1 ⟨0⟩, ⟨0⟩), (recordOf "1323" 1 ⟨5⟩, ⟨5⟩),
          (recordOf "boom" 1 ⟨999⟩, ⟨999⟩)]).map (fun s => s.2.2) = .ok (oneTo 3) :=
  get_collision_shares_count fnv1a32 countersWithMap Heap.empty 1 (recordOf "boom" 1 ⟨0⟩)
    "1323" ⟨1000⟩ (recordOf "boom" 1 ⟨0⟩, ⟨0⟩)
    [(recordOf "1323" 1 ⟨5⟩, ⟨5⟩), (recordOf "boom" 1 ⟨999⟩, ⟨999⟩)]
    (by decide) (by decide)
    ⟨_, get_custom_absent fnv1a32 countersWithMap Heap.empty 1 (recordOf "boom" 1 ⟨0⟩)
      (by decide) (fun _ => none) rfl rfl, by simp [Heap.read, Heap.empty]⟩
    (by simp [recordOf]) (by decide) (by decide) (by decide) (by decide)

/-- C10, the code at the failing input: for the keys "a" and "b", whose hashes differ
modulo 4096, on the table of `newCounters`, `get` at the level info returns the nil
pointer for both, not two distinct counters, and `Inc` on it panics; `get` at the custom
level 1 panics for both. -/
theorem newCounters_get_distinct_buckets_nil :
    fnv1a32 "a" % countersPerLevel ≠ fnv1a32 "b" % countersPerLevel ∧
    newCounters.get fnv1a32 Heap.empty LevelInfo (recordOf "a" LevelInfo ⟨0⟩) =
      .ok (newCounters, Heap.empty, .nil) ∧
    newCounters.get fnv1a32 Heap.empty LevelInfo (recordOf "b" LevelInfo ⟨0⟩) =
      .ok (newCounters, Heap.empty, .nil) ∧
    CounterPtr.nil.Inc Heap.empty ⟨0⟩ ⟨1000⟩ = .error .nilDereference ∧
    newCounters.get fnv1a32 Heap.empty 1 (recordOf "a" 1 ⟨0⟩) = .error .nilMapAssignment ∧
    newCounters.get fnv1a32 Heap.empty 1 (recordOf "b" 1 ⟨0⟩) = .error .nilMapAssignment :=
  ⟨by decide,
    (get_wellKnown fnv1a32 newCounters Heap.empty _).2.1,
    (get_wellKnown fnv1a32 newCounters Heap.empty _).2.1,
    Inc_nil _ _ _,
    get_custom_of_nil_map fnv1a32 newCounters Heap.empty 1 _ (by decide) rfl,
    get_custom_of_nil_map fnv1a32 newCounters Heap.empty 1 _ (by decide) rfl⟩

/-! ## Further lemmas on the counter and on `get` -/

theorem Inc_counter_lt (c : counter) (t : Time) (tick : Duration) :
    (c.Inc t tick).1.counter < 2 ^ 64 := by
  by_cases h : t.UnixNano < c.resetAt
  · rw [Inc_of_active c t tick h]
    exact wrapUint64_lt _
  · rw [Inc_of_expired c t tick (by omega)]
    norm_num

theorem Reachable.counter_lt (c : counter) (hr : Reachable c) : c.counter < 2 ^ 64 := by
  cases hr with
  | fresh => simp [freshCounter]
  | step c0 t tick _ => exact Inc_counter_lt c0 t tick

/-- Sequential calls lead from reachable states to reachable states. -/
theorem Reachable.incSeq (tick : Duration) (ts : List Time) (c : counter)
    (hr : Reachable c) : Reachable (IncSeq c tick ts).1 := by
  induction ts generalizing c with
  | nil => exact hr
  | cons t ts ih => exact ih _ (Reachable.step c t tick hr)

/-- A call that has returned takes no further step. -/
theorem runSolo_of_returned (c : counter) (th : Call) (n : Nat)
    (h : th.returned = true) : runSolo c th n = (c, th) := by
  induction n with
  | zero => rfl
  | succ n ih =>
    obtain ⟨t, tick, pc⟩ := th
    cases pc <;> simp [Call.returned] at h <;> simpa [runSolo, stepCall] using ih

/-- At a well-known level `get` returns and changes neither table nor heap. -/
theorem get_wellKnown_state (fnv32a : String → Nat) (cs : counters) (h : Heap) (lvl : Level)
    (record : Record) (hl : wellKnown lvl = true) :
    ∃ p, cs.get fnv32a h lvl record = .ok (cs, h, p) := by
  simp only [wellKnown, Bool.or_eq_true, beq_iff_eq] at hl
  obtain ⟨g1, g2, g3, g4⟩ := get_wellKnown fnv32a cs h record
  rcases hl with ((hl | hl) | hl) | hl <;> subst hl
  · exact ⟨_, g1⟩
  · exact ⟨_, g2⟩
  · exact ⟨_, g3⟩
  · exact ⟨_, g4⟩

/-- The outcomes of `get` on a table whose map is allocated: it returns, having removed
no entry and no array, or it panics on an entry bound to the nil pointer. -/
theorem get_of_map (fnv32a : String → Nat) (cs : counters) (h : Heap) (lvl : Level)
    (record : Record) (f : Level → Option ArrayPtr) (hm : cs.customLevelCounter = some f) :
    (∀ cs1 h1 p, cs.get fnv32a h lvl record = .ok (cs1, h1, p) →
      ∃ f1, cs1.customLevelCounter = some f1 ∧ (∀ K v, f K = some v → f1 K = some v) ∧
        (∀ (b : Nat) arr1, h.arrays[b]? = some arr1 → h1.arrays[b]? = some arr1)) ∧
    (∀ e, cs.get fnv32a h lvl record = .error e → e = .nilDereference ∧ f lvl = some .nil) := by
  cases hl : wellKnown lvl with
  | true =>
    obtain ⟨p0, hg⟩ := get_wellKnown_state fnv32a cs h lvl record hl
    rw [hg]
    refine ⟨?_, fun e he => by cases he⟩
    intro cs1 h1 p heq
    simp only [Except.ok.injEq, Prod.mk.injEq] at heq
    rw [← heq.1, ← heq.2.1]
    exact ⟨f, hm, fun _ _ hv => hv, fun _ _ hb => hb⟩
  | false =>
    cases hf : f lvl with
    | none =>
      rw [get_custom_absent fnv32a cs h lvl record hl f hm hf]
      refine ⟨?_, fun e he => by cases he⟩
      intro cs1 h1 p heq
      simp only [Except.ok.injEq, Prod.mk.injEq] at heq
      rw [← heq.1, ← heq.2.1]
      refine ⟨_, rfl, ?_, ?_⟩
      · intro K v hv
        have hK : K ≠ lvl := fun e => by rw [e, hf] at hv; cases hv
        rw [Function.update_noteq hK]
        exact hv
      · intro b arr1 hb
        have hlt : b < h.arrays.length := by
          rw [List.getElem?_eq_some_iff] at hb
          exact hb.1
        simp only [List.getElem?_append_left hlt, hb]
    | some v =>
      cases v with
      | nil =>
        rw [get_custom_nil_array fnv32a cs h lvl record hl f hm hf]
        constructor
        · intro _ _ _ he
          cases he
        · intro e he
          simp only [Except.error.injEq] at he
          exact ⟨he.symm, rfl⟩
      | addr a =>
        rw [get_custom_present fnv32a cs h lvl record hl f hm a hf]
        refine ⟨?_, fun e he => by cases he⟩
        intro cs1 h1 p heq
        simp only [Except.ok.injEq, Prod.mk.injEq] at heq
        rw [← heq.1, ← heq.2.1]
        exact ⟨f, hm, fun _ _ hv => hv, fun _ _ hb => hb⟩

/-- The method `get` never fails a bounds check. -/
theorem get_ne_indexOutOfRange (fnv32a : String → Nat) (cs : counters) (h : Heap)
    (lvl : Level) (record : Record) :
    cs.get fnv32a h lvl record ≠ .error .indexOutOfRange := by
  cases hl : wellKnown lvl with
  | true =>
    obtain ⟨p0, hg⟩ := get_wellKnown_state fnv32a cs h lvl record hl
    rw [hg]
    exact fun he => by cases he
  | false =>
    cases hm : cs.customLevelCounter with
    | none =>
      rw [get_custom_of_nil_map fnv32a cs h lvl record hl hm]
      exact fun he => by cases he
    | some f =>
      intro he
      have := ((get_of_map fnv32a cs h lvl record f hm).2 _ he).1
      cases this

/-! ## Further properties of the specification: sequential calls -/

/-- C11: on a table whose map holds an array for a custom level `L`, a sequential `get`
at any level either returns, having removed or rebound no entry of the map and no
array, so that `L` is still bound to the same array with the same counters, or panics
on an entry bound to the nil pointer before any write; and `get` at `L` returns the
element `n` of the array that is there, allocating nothing. -/
theorem get_keeps_custom_entries (fnv32a : String → Nat) (cs : counters) (h : Heap)
    (L L1 : Level) (record : Record) (f : Level → Option ArrayPtr) (a : Nat)
    (arr : Fin countersPerLevel → counter)
    (hL : wellKnown L = false) (hm : cs.customLevelCounter = some f)
    (hf : f L = some (.addr a)) (ha : h.arrays[a]? = some arr) :
    (∀ cs1 h1 p, cs.get fnv32a h L1 record = .ok (cs1, h1, p) →
      ∃ f1, cs1.customLevelCounter = some f1 ∧ (∀ K v, f K = some v → f1 K = some v) ∧
        f1 L = some (.addr a) ∧ h1.arrays[a]? = some arr) ∧
    (∀ e, cs.get fnv32a h L1 record = .error e → e = .nilDereference ∧ f L1 = some .nil) ∧
    cs.get fnv32a h L record =
      .ok (cs, h, .elem a ⟨bucket fnv32a record.Message, bucket_lt _ _⟩) := by
  obtain ⟨hok, herr⟩ := get_of_map fnv32a cs h L1 record f hm
  refine ⟨?_, herr, get_custom_present fnv32a cs h L record hL f hm a hf⟩
  intro cs1 h1 p hg
  obtain ⟨f1, hf1, hkeep, harr⟩ := hok cs1 h1 p hg
  exact ⟨f1, hf1, hkeep, hkeep L _ hf, harr a arr ha⟩

/-- C11 at an input: a table whose map binds the custom level 1 to the array at address
0, and a `get` at the custom level 2. -/
theorem get_keeps_custom_entries_witness :
    (∀ cs1 h1 p,
      counters.get fnv1a32
          ⟨some (Function.update (fun _ => none) 1 (some (.addr 0))), newCounters.debugCtr,
            newCounters.infoCtr, newCounters.warnCtr, newCounters.errCtr⟩
          ⟨[fun _ => freshCounter]⟩ 2 (recordOf "boom" 2 ⟨0⟩) = .ok (cs1, h1, p) →
      ∃ f1, cs1.customLevelCounter = some f1 ∧
        (∀ K v, Function.update (fun _ => none) (1 : Level) (some (ArrayPtr.addr 0)) K = some v →
          f1 K = some v) ∧
        f1 1 = some (.addr 0) ∧ h1.arrays[0]? = some (fun _ => freshCounter)) ∧
    (∀ e,
      counters.get fnv1a32
          ⟨some (Function.update (fun _ => none) 1 (some (.addr 0))), newCounters.debugCtr,
            newCounters.infoCtr, newCounters.warnCtr, newCounters.errCtr⟩
          ⟨[fun _ => freshCounter]⟩ 2 (recordOf "boom" 2 ⟨0⟩) = .error e →
      e = .nilDereference ∧
        Function.update (fun _ => none) (1 : Level) (some (ArrayPtr.addr 0)) 2 = some .nil) ∧
    counters.get fnv1a32
        ⟨some (Function.update (fun _ => none) 1 (some (.addr 0))), newCounters.debugCtr,
          newCounters.infoCtr, newCounters.warnCtr, newCounters.errCtr⟩
        ⟨[fun _ => freshCounter]⟩ 1 (recordOf "boom" 2 ⟨0⟩) =
      .ok (⟨some (Function.update (fun _ => none) 1 (some (.addr 0))), newCounters.debugCtr,
            newCounters.infoCtr, newCounters.warnCtr, newCounters.errCtr⟩,
          ⟨[fun _ => freshCounter]⟩,
          .elem 0 ⟨bucket fnv1a32 (recordOf "boom" 2 ⟨0⟩).Message, bucket_lt _ _⟩) :=
  get_keeps_custom_entries fnv1a32 _ ⟨[fun _ => freshCounter]⟩ 1 2 (recordOf "boom" 2 ⟨0⟩)
    (Function.update (fun _ => none) 1 (some (.addr 0))) 0 (fun _ => freshCounter)
    (by decide) rfl (by simp) rfl

/-- C12, as stated, fails when the count wraps: the state with `resetAt = 1` and
`count = 2 ^ 64 - 1` is reached from a fresh counter by sequential calls (one at the
epoch with a tick of 1 ns, then `2 ^ 64 - 2` more at the epoch), and a further call at
the epoch returns 0 and leaves the count at 0. -/
theorem Inc_count_wraps_to_zero :
    Reachable ⟨1, 2 ^ 64 - 1⟩ ∧
    (counter.Inc ⟨1, 2 ^ 64 - 1⟩ ⟨0⟩ ⟨1⟩).2 = 0 ∧
    (counter.Inc ⟨1, 2 ^ 64 - 1⟩ ⟨0⟩ ⟨1⟩).1.counter = 0 := by
  refine ⟨?_, by decide, by decide⟩
  have h1 : Reachable ⟨1, 1⟩ := Reachable.step freshCounter ⟨0⟩ ⟨1⟩ Reachable.fresh
  have h2 := Reachable.incSeq ⟨1⟩ (List.replicate (2 ^ 64 - 2) ⟨0⟩) ⟨1, 1⟩ h1
  rw [IncSeq_of_active ⟨1⟩ (List.replicate (2 ^ 64 - 2) ⟨0⟩) ⟨1, 1⟩
    (fun t ht => by rw [List.eq_of_mem_replicate ht]; decide)
    (by rw [List.length_replicate]; norm_num)] at h2
  rw [List.length_replicate] at h2
  exact h2

/-- C12, amended: for every counter state reachable from a fresh counter by sequential
calls of `Inc`, every timestamp and every tick, `Inc` returns a value of at least 1 and
leaves the count at least 1, except when the count is `2 ^ 64 - 1` and the window is
still active, where the addition wraps. -/
theorem Inc_count_ge_one (c : counter) (now : Time) (tick : Duration) (hr : Reachable c)
    (hne : ¬ (c.counter = 2 ^ 64 - 1 ∧ now.UnixNano < c.resetAt)) :
    1 ≤ (c.Inc now tick).2 ∧ 1 ≤ (c.Inc now tick).1.counter := by
  have hlt := Reachable.counter_lt c hr
  by_cases h : now.UnixNano < c.resetAt
  · rw [Inc_of_active c now tick h]
    have hc : c.counter ≠ 2 ^ 64 - 1 := fun e => hne ⟨e, h⟩
    simp only [wrapUint64]
    omega
  · rw [Inc_of_expired c now tick (by omega)]
    exact ⟨le_refl _, le_refl _⟩

/-- C12, amended, at an input: the state after one call, and a second call in its
window. -/
theorem Inc_count_ge_one_witness :
    1 ≤ ((freshCounter.Inc ⟨0⟩ ⟨1000⟩).1.Inc ⟨5⟩ ⟨1000⟩).2 ∧
      1 ≤ ((freshCounter.Inc ⟨0⟩ ⟨1000⟩).1.Inc ⟨5⟩ ⟨1000⟩).1.counter :=
  Inc_count_ge_one (freshCounter.Inc ⟨0⟩ ⟨1000⟩).1 ⟨5⟩ ⟨1000⟩
    (Reachable.step freshCounter ⟨0⟩ ⟨1000⟩ Reachable.fresh) (by decide)

/-- C15: in a state whose window is still active at `now` (`resetAt > nowNanos`), a
sequential `Inc` returns `count + 1` modulo `2 ^ 64`, stores it as the count and leaves
`resetAt` as it was; the tick changes neither the result nor the new state. -/
theorem Inc_active_adds_one (c : counter) (now : Time) (tick : Duration)
    (h : now.UnixNano < c.resetAt) :
    (c.Inc now tick).2 = (c.counter + 1) % 2 ^ 64 ∧
    (c.Inc now tick).1.counter = (c.counter + 1) % 2 ^ 64 ∧
    (c.Inc now tick).1.resetAt = c.resetAt ∧
    ∀ tick2 : Duration, c.Inc now tick2 = c.Inc now tick := by
  refine ⟨?_, ?_, ?_, fun tick2 => ?_⟩ <;>
    simp [Inc_of_active c now _ h, wrapUint64]

/-- C15 at an input: a window that ends at 1 s, a count of 7 and a call at 0.5 s. -/
theorem Inc_active_adds_one_witness :
    (counter.Inc ⟨1000000000, 7⟩ ⟨500000000⟩ ⟨1000000000⟩).2 = (7 + 1) % 2 ^ 64 ∧
    (counter.Inc ⟨1000000000, 7⟩ ⟨500000000⟩ ⟨1000000000⟩).1.counter = (7 + 1) % 2 ^ 64 ∧
    (counter.Inc ⟨1000000000, 7⟩ ⟨500000000⟩ ⟨1000000000⟩).1.resetAt = 1000000000 ∧
    ∀ tick2 : Duration, counter.Inc ⟨1000000000, 7⟩ ⟨500000000⟩ tick2 =
      counter.Inc ⟨1000000000, 7⟩ ⟨500000000⟩ ⟨1000000000⟩ :=
  Inc_active_adds_one ⟨1000000000, 7⟩ ⟨500000000⟩ ⟨1000000000⟩ (by decide)

/-- C16: a sequential `Inc` equals the reference function `IncRef`. On the reset branch
its compare-and-swap finds the value loaded at line 20 and succeeds; run alone as atomic
steps, the call returns after three of them with the state and result of `Inc`, and at
no step stands before the compensating add or has returned from it. -/
theorem Inc_eq_IncRef (c : counter) (now : Time) (tick : Duration) :
    c.Inc now tick = IncRef c now tick ∧
    (resetAtCompareAndSwap (counterStore c 1) (resetAtLoad c)
      (wrapInt64 (now.UnixNano + tick.Nanoseconds))).2 = true ∧
    (runSolo c ⟨now, tick, .load⟩ 3).1 = (c.Inc now tick).1 ∧
    (runSolo c ⟨now, tick, .load⟩ 3).2.result = some (c.Inc now tick).2 ∧
    ∀ n, (runSolo c ⟨now, tick, .load⟩ n).2.pc ≠ .addLost ∧
      ∀ r, (runSolo c ⟨now, tick, .load⟩ n).2.pc ≠ .retLost r := by
  by_cases h : now.UnixNano < c.resetAt
  · have h3 : runSolo c ⟨now, tick, .load⟩ 3 =
        ((c.Inc now tick).1, ⟨now, tick, .retActive (c.Inc now tick).2⟩) := by
      simp [runSolo, stepCall, resetAtLoad, h, Inc_of_active c now tick h, counterAdd]
    refine ⟨?_, ?_, ?_, ?_, ?_⟩
    · simp [Inc_of_active c now tick h, IncRef, h, wrapUint64]
    · simp [resetAtCompareAndSwap, counterStore, resetAtLoad]
    · rw [h3]
    · rw [h3]
      rfl
    · intro n
      rcases n with _ | _ | _ | n
      · simp [runSolo]
      · simp [runSolo, stepCall, resetAtLoad, h]
      · simp [runSolo, stepCall, resetAtLoad, h]
      · have : runSolo c ⟨now, tick, .load⟩ (n + 3) =
            ((c.Inc now tick).1, ⟨now, tick, .retActive (c.Inc now tick).2⟩) := by
          rw [← h3]
          simp only [runSolo]
          rw [runSolo_of_returned _ _ n (by simp [stepCall, resetAtLoad, h, Call.returned])]
        rw [this]
        simp
  · have h1 : ¬ (c.resetAt > now.UnixNano) := h
    have h3 : runSolo c ⟨now, tick, .load⟩ 3 = ((c.Inc now tick).1, ⟨now, tick, .retWon⟩) := by
      simp [runSolo, stepCall, resetAtLoad, h1, Inc_of_expired c now tick (by omega),
        counterStore, resetAtCompareAndSwap, wrapUint64]
    refine ⟨?_, ?_, ?_, ?_, ?_⟩
    · simp [Inc_of_expired c now tick (by omega), IncRef, h1]
    · simp [resetAtCompareAndSwap, counterStore, resetAtLoad]
    · rw [h3]
    · rw [h3, Inc_of_expired c now tick (by omega)]
      rfl
    · intro n
      rcases n with _ | _ | _ | n
      · simp [runSolo]
      · simp [runSolo, stepCall, resetAtLoad, h1]
      · simp [runSolo, stepCall, resetAtLoad, h1]
      · have : runSolo c ⟨now, tick, .load⟩ (n + 3) =
            ((c.Inc now tick).1, ⟨now, tick, .retWon⟩) := by
          rw [← h3]
          simp only [runSolo]
          rw [runSolo_of_returned _ _ n (by
            simp [stepCall, resetAtLoad, h1, counterStore, resetAtCompareAndSwap,
              Call.returned])]
        rw [this]
        simp

/-- C17: for every message the bucket index is below 4096, and `get`, at every level, on
every table and heap, never fails the bounds check of an array. -/
theorem get_index_in_bounds (fnv32a : String → Nat) (cs : counters) (h : Heap)
    (lvl : Level) (record : Record) :
    0 ≤ bucket fnv32a record.Message ∧
    bucket fnv32a record.Message < 4096 ∧
    bucket fnv32a record.Message < countersPerLevel ∧
    cs.get fnv32a h lvl record ≠ .error .indexOutOfRange :=
  ⟨Nat.zero_le _, bucket_lt fnv32a record.Message, bucket_lt fnv32a record.Message,
    get_ne_indexOutOfRange fnv32a cs h lvl record⟩

/-- C18: for every counter state, every timestamp and every tick `≥ 0` with
`nowNanos + tick` not overflowing `int64`, the `resetAt` after a sequential `Inc` is at
least the `resetAt` before it; when moreover `tick > 0` and the reset branch is taken,
the new `resetAt` is greater than `nowNanos` and a second `Inc` at the same timestamp
returns 2. -/
theorem Inc_resetAt_monotone (c : counter) (now : Time) (tick : Duration)
    (h0 : 0 ≤ tick.Nanoseconds) (hno : now.UnixNano + tick.Nanoseconds < 2 ^ 63) :
    c.resetAt ≤ (c.Inc now tick).1.resetAt ∧
    (0 < tick.Nanoseconds → c.resetAt ≤ now.UnixNano →
      now.UnixNano < (c.Inc now tick).1.resetAt ∧
        ((c.Inc now tick).1.Inc now tick).2 = 2) := by
  have hlo : -2 ^ 63 ≤ now.UnixNano := wrapInt64_lower _
  have hw : wrapInt64 (now.UnixNano + tick.Nanoseconds) = now.UnixNano + tick.Nanoseconds :=
    wrapInt64_of_inRange _ (by omega) hno
  constructor
  · by_cases h : now.UnixNano < c.resetAt
    · rw [Inc_of_active c now tick h]
    · rw [Inc_of_expired c now tick (by omega), hw]
      simp only
      omega
  · intro hpos hexp
    rw [Inc_of_expired c now tick hexp, hw]
    have hact : now.UnixNano <
        (counter.mk (now.UnixNano + tick.Nanoseconds) 1).resetAt := by
      simp only
      omega
    refine ⟨hact, ?_⟩
    rw [Inc_of_active _ now tick hact]
    rfl

/-- C18 at an input: a window that ended at 1 s, a call at 2 s with a tick of 1 s. -/
theorem Inc_resetAt_monotone_witness :
    (counter.mk 1000000000 7).resetAt ≤
      (counter.Inc ⟨1000000000, 7⟩ ⟨2000000000⟩ ⟨1000000000⟩).1.resetAt ∧
    (0 < (Duration.mk 1000000000).Nanoseconds →
      (counter.mk 1000000000 7).resetAt ≤ (Time.mk 2000000000).UnixNano →
      (Time.mk 2000000000).UnixNano <
          (counter.Inc ⟨1000000000, 7⟩ ⟨2000000000⟩ ⟨1000000000⟩).1.resetAt ∧
        ((counter.Inc ⟨1000000000, 7⟩ ⟨2000000000⟩ ⟨1000000000⟩).1.Inc ⟨2000000000⟩
          ⟨1000000000⟩).2 = 2) :=
  Inc_resetAt_monotone ⟨1000000000, 7⟩ ⟨2000000000⟩ ⟨1000000000⟩ (by decide) (by decide)

/-! ## Interleaved calls: general lemmas -/

theorem stepAt_of_none (cfg : Config) (i : Nat) (h : cfg.2[i]? = none) :
    stepAt cfg i = cfg := by
  simp [stepAt, h]

theorem stepAt_of_some (cfg : Config) (i : Nat) (th : Call) (h : cfg.2[i]? = some th) :
    stepAt cfg i = ((stepCall cfg.1 th).1, cfg.2.set i (stepCall cfg.1 th).2) := by
  simp [stepAt, h]

/-- A property kept by every atomic step of every call holds after every interleaving. -/
theorem run_invariant (Inv : Config → Prop)
    (hstep : ∀ cfg i th, Inv cfg → cfg.2[i]? = some th →
      Inv ((stepCall cfg.1 th).1, cfg.2.set i (stepCall cfg.1 th).2))
    (schedule : List Nat) (cfg : Config) (h0 : Inv cfg) : Inv (run cfg schedule) := by
  induction schedule generalizing cfg with
  | nil => exact h0
  | cons i rest ih =>
    simp only [run, List.foldl_cons]
    apply ih
    cases hi : cfg.2[i]? with
    | none => rw [stepAt_of_none cfg i hi]; exact h0
    | some th => rw [stepAt_of_some cfg i th hi]; exact hstep cfg i th h0 hi

/-- Replacing one call changes a count of calls by the difference of the two tests. -/
theorem countCalls_set (f : Call → Bool) (l : List Call) (i : Nat) (x y : Call)
    (h : l[i]? = some y) :
    countCalls f (l.set i x) + (if f y then 1 else 0) =
      countCalls f l + (if f x then 1 else 0) := by
  induction l generalizing i with
  | nil => simp at h
  | cons a l ih =>
    cases i with
    | zero =>
      simp only [List.getElem?_cons_zero, Option.some.injEq] at h
      subst h
      simp only [countCalls, List.set_cons_zero, List.map_cons, List.sum_cons]
      omega
    | succ i =>
      simp only [List.getElem?_cons_succ] at h
      have := ih i h
      simp only [countCalls, List.set_cons_succ, List.map_cons, List.sum_cons] at this ⊢
      omega

theorem countCalls_le_length (f : Call → Bool) (l : List Call) :
    countCalls f l ≤ l.length := by
  induction l with
  | nil => simp [countCalls]
  | cons a l ih =>
    simp only [countCalls, List.map_cons, List.sum_cons, List.length_cons] at ih ⊢
    split <;> omega

theorem countCalls_eq_zero (f : Call → Bool) (l : List Call)
    (h : ∀ th ∈ l, f th = false) : countCalls f l = 0 := by
  induction l with
  | nil => simp [countCalls]
  | cons a l ih =>
    have ha := h a (List.mem_cons_self _ _)
    have := ih (fun th hth => h th (List.mem_cons_of_mem _ hth))
    simp only [countCalls, List.map_cons, List.sum_cons] at this ⊢
    simp [ha, this]

theorem countCalls_eq_length (f : Call → Bool) (l : List Call)
    (h : ∀ th ∈ l, f th = true) : countCalls f l = l.length := by
  induction l with
  | nil => simp [countCalls]
  | cons a l ih =>
    have ha := h a (List.mem_cons_self _ _)
    have := ih (fun th hth => h th (List.mem_cons_of_mem _ hth))
    simp only [countCalls, List.map_cons, List.sum_cons, List.length_cons] at this ⊢
    simp [ha, this]
    omega

/-- The calls after a replacement are the old ones and the new one. -/
theorem mem_of_mem_set (l : List Call) (i : Nat) (x th : Call) (h : th ∈ l.set i x) :
    th ∈ l ∨ th = x :=
  List.mem_or_eq_of_mem_set h

/-- Every atomic operation of a call that has not returned brings it one step nearer
to its return, whatever the state of the counter: a call is never held up. -/
theorem stepCall_stepsLeft (c : counter) (th : Call) (h : th.returned = false) :
    (stepCall c th).2.stepsLeft < th.stepsLeft := by
  obtain ⟨t, tick, pc⟩ := th
  cases pc with
  | load =>
    by_cases hc : resetAtLoad c > t.UnixNano <;> simp [stepCall, hc, Call.stepsLeft]
  | cas ra =>
    by_cases hc : c.resetAt = ra <;>
      simp [stepCall, resetAtCompareAndSwap, hc, Call.stepsLeft]
  | addActive => simp [stepCall, Call.stepsLeft]
  | store ra => simp [stepCall, Call.stepsLeft]
  | addLost => simp [stepCall, Call.stepsLeft]
  | retActive r => simp [Call.returned] at h
  | retLost r => simp [Call.returned] at h
  | retWon => simp [Call.returned] at h

theorem lt_length_of_getElem? (l : List Call) (i : Nat) (th : Call)
    (h : l[i]? = some th) : i < l.length := by
  rw [List.getElem?_eq_some_iff] at h
  exact h.1

theorem getElem?_set_cases (l : List Call) (i j : Nat) (x th : Call)
    (h : (l.set i x)[j]? = some th) : (j = i ∧ th = x) ∨ (j ≠ i ∧ l[j]? = some th) := by
  rw [List.getElem?_set] at h
  by_cases hij : i = j
  · subst hij
    left
    split at h
    · split at h
      · exact ⟨rfl, (Option.some.inj h).symm⟩
      · cases h
    · contradiction
  · right
    rw [if_neg hij] at h
    exact ⟨fun e => hij e.symm, h⟩

theorem set_of_getElem? (l : List Call) (i : Nat) (th : Call) (h : l[i]? = some th) :
    l.set i th = l := by
  apply List.ext_getElem?
  intro j
  rw [List.getElem?_set]
  by_cases hij : i = j
  · subst hij
    simp [lt_length_of_getElem? l i th h, h]
  · simp [hij]

/-- A call that has returned takes no step. -/
theorem stepCall_of_returned (c : counter) (th : Call) (h : th.returned = true) :
    stepCall c th = (c, th) := by
  obtain ⟨t, tick, pc⟩ := th
  cases pc <;> simp [Call.returned] at h <;> rfl

theorem stepsLeft_eq_zero_iff (th : Call) : th.stepsLeft = 0 ↔ th.returned = true := by
  obtain ⟨t, tick, pc⟩ := th
  cases pc <;> simp [Call.stepsLeft, Call.returned]

theorem stepsLeft_le_four (th : Call) : th.stepsLeft ≤ 4 := by
  obtain ⟨t, tick, pc⟩ := th
  cases pc <;> simp [Call.stepsLeft]

theorem stepCall_stepsLeft_le (c : counter) (th : Call) :
    (stepCall c th).2.stepsLeft ≤ th.stepsLeft - 1 := by
  cases h : th.returned with
  | false =>
    have := stepCall_stepsLeft c th h
    omega
  | true =>
    rw [stepCall_of_returned c th h]
    have := (stepsLeft_eq_zero_iff th).mpr h
    simp only
    omega

theorem stepAt_length (cfg : Config) (i : Nat) : (stepAt cfg i).2.length = cfg.2.length := by
  cases hi : cfg.2[i]? with
  | none => rw [stepAt_of_none cfg i hi]
  | some th => rw [stepAt_of_some cfg i th hi]; simp

theorem run_length (schedule : List Nat) (cfg : Config) :
    (run cfg schedule).2.length = cfg.2.length := by
  induction schedule generalizing cfg with
  | nil => rfl
  | cons j rest ih =>
    simp only [run, List.foldl_cons]
    exact (ih (stepAt cfg j)).trans (stepAt_length cfg j)

/-- Each time a call is scheduled it comes one atomic operation nearer to its return,
whatever the other calls do. -/
theorem run_stepsLeft (schedule : List Nat) (cfg : Config) (i : Nat) (th : Call)
    (hi : cfg.2[i]? = some th) :
    ∃ th1, (run cfg schedule).2[i]? = some th1 ∧
      th1.stepsLeft ≤ th.stepsLeft - schedule.count i := by
  induction schedule generalizing cfg th with
  | nil => exact ⟨th, hi, by simp⟩
  | cons j rest ih =>
    simp only [run, List.foldl_cons]
    by_cases hji : j = i
    · subst hji
      have hnext : (stepAt cfg j).2[j]? = some (stepCall cfg.1 th).2 := by
        rw [stepAt_of_some cfg j th hi]
        exact List.getElem?_set_self (lt_length_of_getElem? _ _ _ hi)
      obtain ⟨th1, h1, hle⟩ := ih (stepAt cfg j) _ hnext
      refine ⟨th1, h1, ?_⟩
      have := stepCall_stepsLeft_le cfg.1 th
      rw [List.count_cons_self]
      omega
    · have hnext : (stepAt cfg j).2[i]? = some th := by
        cases hj : cfg.2[j]? with
        | none => rw [stepAt_of_none cfg j hj]; exact hi
        | some thj =>
          rw [stepAt_of_some cfg j thj hj]
          simp only [List.getElem?_set_ne hji]
          exact hi
      obtain ⟨th1, h1, hle⟩ := ih (stepAt cfg j) _ hnext
      refine ⟨th1, h1, ?_⟩
      rw [List.count_cons_of_ne (fun e => hji e.symm)]
      exact hle

/-- No call can be held up by the others: every schedule that lets each call take four
steps ends with all calls returned. -/
theorem run_finished_of_fair (schedule : List Nat) (cfg : Config)
    (hfair : ∀ i, i < cfg.2.length → 4 ≤ schedule.count i) :
    finished (run cfg schedule) = true := by
  simp only [finished, List.all_eq_true]
  intro th1 hth1
  obtain ⟨i, hi1⟩ := List.getElem?_of_mem hth1
  have hilt : i < cfg.2.length := by
    rw [← run_length schedule cfg]
    exact lt_length_of_getElem? _ _ _ hi1
  have hi : cfg.2[i]? = some (cfg.2[i]) := List.getElem?_eq_getElem hilt
  obtain ⟨th2, h2, hle⟩ := run_stepsLeft schedule cfg i _ hi
  rw [hi1] at h2
  cases h2
  have := stepsLeft_le_four (cfg.2[i])
  have := hfair i hilt
  exact (stepsLeft_eq_zero_iff th1).mp (by omega)

/-! ## Interleaved calls inside an active window -/

/-- The atomic steps of calls inside an active window keep `ActiveInv`. -/
theorem ActiveInv_step (R : Int) (c0 k : Nat) (hk : c0 + k < 2 ^ 64) (cfg : Config) (i : Nat)
    (th : Call) (hinv : ActiveInv R c0 k cfg) (hi : cfg.2[i]? = some th) :
    ActiveInv R c0 k ((stepCall cfg.1 th).1, cfg.2.set i (stepCall cfg.1 th).2) := by
  obtain ⟨c, l⟩ := cfg
  obtain ⟨hR, hlen, hpc, hcount, hrange, hdist, hmax⟩ := hinv
  simp only at hR hlen hpc hcount hrange hdist hmax hi
  obtain ⟨hact, hcase⟩ := hpc th (List.getElem?_mem hi)
  obtain ⟨t, tick, pc⟩ := th
  simp only at hact hcase
  have hilt := lt_length_of_getElem? l i _ hi
  rcases hcase with hload | hadd | ⟨r0, hret⟩
  · -- the load of line 20 sees the window active
    subst hload
    have hgt : resetAtLoad c > t.UnixNano := by simpa [resetAtLoad, hR] using hact
    have hstep : stepCall c ⟨t, tick, .load⟩ = (c, ⟨t, tick, .addActive⟩) := by
      simp [stepCall, hgt]
    have hcnt := countCalls_set Call.added l i ⟨t, tick, .addActive⟩ ⟨t, tick, .load⟩ hi
    simp only [Call.added, Bool.false_eq_true, if_false, Nat.add_zero] at hcnt
    rw [hstep]
    refine ⟨hR, by simpa using hlen, ?_, ?_, ?_, ?_, ?_⟩
    · intro th hth
      rcases mem_of_mem_set l i _ th hth with h1 | h1
      · exact hpc th h1
      · subst h1
        exact ⟨hact, Or.inr (Or.inl rfl)⟩
    · simp only [hcnt]
      exact hcount
    · intro j th r hj hr
      rcases getElem?_set_cases l i j _ th hj with ⟨_, h1⟩ | ⟨_, h1⟩
      · subst h1
        cases hr
      · exact hrange j th r h1 hr
    · intro j1 j2 th1 th2 r hne h1 h2 hr
      rcases getElem?_set_cases l i j1 _ th1 h1 with ⟨_, e1⟩ | ⟨_, e1⟩
      · subst e1
        cases hr
      · rcases getElem?_set_cases l i j2 _ th2 h2 with ⟨_, e2⟩ | ⟨_, e2⟩
        · subst e2
          exact fun e => by cases e
        · exact hdist j1 j2 th1 th2 r hne e1 e2 hr
    · intro hone
      simp only [hcnt] at hone
      obtain ⟨j, th, hj, hr⟩ := hmax hone
      have hji : i ≠ j := by
        intro e
        subst e
        rw [hi] at hj
        cases hj
        cases hr
      exact ⟨j, th, by simpa [List.getElem?_set_ne hji] using hj, hr⟩
  · -- the add of line 22
    subst hadd
    have hcnt := countCalls_set Call.added l i
      ⟨t, tick, .retActive (wrapUint64 (c.counter + 1))⟩ ⟨t, tick, .addActive⟩ hi
    simp only [Call.added, Bool.false_eq_true, if_false, Nat.add_zero, if_true] at hcnt
    have hle := countCalls_le_length Call.added
      (l.set i ⟨t, tick, .retActive (wrapUint64 (c.counter + 1))⟩)
    rw [List.length_set] at hle
    have hw : wrapUint64 (c.counter + 1) = c.counter + 1 := by
      unfold wrapUint64
      omega
    have hstep : stepCall c ⟨t, tick, .addActive⟩ =
        (⟨c.resetAt, c.counter + 1⟩, ⟨t, tick, .retActive (c.counter + 1)⟩) := by
      simp [stepCall, counterAdd, hw]
    rw [hw] at hcnt
    rw [hstep]
    refine ⟨hR, by simpa using hlen, ?_, ?_, ?_, ?_, ?_⟩
    · intro th hth
      rcases mem_of_mem_set l i _ th hth with h1 | h1
      · exact hpc th h1
      · subst h1
        exact ⟨hact, Or.inr (Or.inr ⟨_, rfl⟩)⟩
    · simp only [hcnt]
      omega
    · intro j th r hj hr
      rcases getElem?_set_cases l i j _ th hj with ⟨_, h1⟩ | ⟨_, h1⟩
      · subst h1
        simp only [Pc.retActive.injEq] at hr
        simp only
        omega
      · have := hrange j th r h1 hr
        simp only
        omega
    · intro j1 j2 th1 th2 r hne h1 h2 hr
      rcases getElem?_set_cases l i j1 _ th1 h1 with ⟨e0, e1⟩ | ⟨_, e1⟩
      · rcases getElem?_set_cases l i j2 _ th2 h2 with ⟨e3, _⟩ | ⟨_, e2⟩
        · exact absurd (e0.trans e3.symm) hne
        · subst e1
          simp only [Pc.retActive.injEq] at hr
          intro hr2
          have := (hrange j2 th2 r e2 hr2).2
          omega
      · rcases getElem?_set_cases l i j2 _ th2 h2 with ⟨_, e2⟩ | ⟨_, e2⟩
        · subst e2
          have := (hrange j1 th1 r e1 hr).2
          simp only [ne_eq, Pc.retActive.injEq]
          omega
        · exact hdist j1 j2 th1 th2 r hne e1 e2 hr
    · intro _
      exact ⟨i, _, List.getElem?_set_self hilt, rfl⟩
  · -- the call has returned
    have hstep : stepCall c ⟨t, tick, pc⟩ = (c, ⟨t, tick, pc⟩) :=
      stepCall_of_returned c _ (by simp [Call.returned, hret])
    rw [hstep]
    simp only [set_of_getElem? l i _ hi]
    exact ⟨hR, hlen, hpc, hcount, hrange, hdist, hmax⟩

/-- Calls that have not started, inside the active window, satisfy `ActiveInv`. -/
theorem ActiveInv_init (c : counter) (calls : List Call)
    (hload : ∀ th ∈ calls, th.pc = .load)
    (hact : ∀ th ∈ calls, th.t.UnixNano < c.resetAt) :
    ActiveInv c.resetAt c.counter calls.length (c, calls) := by
  have hzero : countCalls Call.added calls = 0 :=
    countCalls_eq_zero _ _ (fun th hth => by simp [Call.added, hload th hth])
  refine ⟨rfl, rfl, fun th hth => ⟨hact th hth, Or.inl (hload th hth)⟩, ?_, ?_, ?_, ?_⟩
  · simp [hzero]
  · intro i th r hi hr
    rw [hload th (List.getElem?_mem hi)] at hr
    cases hr
  · intro i j thi thj r _ hi _ hr
    rw [hload thi (List.getElem?_mem hi)] at hr
    cases hr
  · intro h
    rw [hzero] at h
    omega

/-- C14, as stated, fails when the count wraps: with the window active until 10 ns and
a count of `2 ^ 64 - 1` at the start, the one call at the epoch returns 0, not the
number of calls plus the count at the start. -/
theorem concurrent_active_window_wraps :
    (Time.mk 0).UnixNano < (counter.mk 10 (2 ^ 64 - 1)).resetAt ∧
    finished (run (⟨10, 2 ^ 64 - 1⟩, [⟨⟨0⟩, ⟨1⟩, .load⟩]) [0, 0]) = true ∧
    (run (⟨10, 2 ^ 64 - 1⟩, [⟨⟨0⟩, ⟨1⟩, .load⟩]) [0, 0]).2.map Call.result = [some 0] ∧
    0 ≠ [Call.mk ⟨0⟩ ⟨1⟩ .load].length + (counter.mk 10 (2 ^ 64 - 1)).counter := by
  decide

/-- C14, amended: under any interleaving of `k ≥ 1` concurrent calls of `Inc` whose
timestamps all lie inside the active window (`nowNanos < resetAt`), with the count at
the start plus `k` below `2 ^ 64`, once all calls have returned: some call returned the
count at the start plus `k`, no call returned more, the returned values are pairwise
distinct, and the count is the count at the start plus `k`. -/
theorem concurrent_active_window (c : counter) (calls : List Call) (schedule : List Nat)
    (hload : ∀ th ∈ calls, th.pc = .load)
    (hact : ∀ th ∈ calls, th.t.UnixNano < c.resetAt)
    (hk : 1 ≤ calls.length)
    (hwrap : c.counter + calls.length < 2 ^ 64)
    (hfin : finished (run (c, calls) schedule) = true) :
    (∃ (i : Nat) (th : Call), (run (c, calls) schedule).2[i]? = some th ∧
      th.result = some (c.counter + calls.length)) ∧
    (∀ (i : Nat) (th : Call) (r : Nat), (run (c, calls) schedule).2[i]? = some th →
      th.result = some r → r ≤ c.counter + calls.length) ∧
    (∀ (i j : Nat) (thi thj : Call) (r : Nat), i ≠ j →
      (run (c, calls) schedule).2[i]? = some thi →
      (run (c, calls) schedule).2[j]? = some thj →
      thi.result = some r → thj.result ≠ some r) ∧
    (run (c, calls) schedule).1.counter = c.counter + calls.length := by
  have hinv := run_invariant (ActiveInv c.resetAt c.counter calls.length)
    (fun cfg i th h hi => ActiveInv_step _ _ _ hwrap cfg i th h hi) schedule (c, calls)
    (ActiveInv_init c calls hload hact)
  generalize run (c, calls) schedule = cfg at hinv hfin
  obtain ⟨cF, l⟩ := cfg
  obtain ⟨_, hlen, hpc, hcount, hrange, hdist, hmax⟩ := hinv
  simp only at hlen hpc hcount hrange hdist hmax
  simp only [finished, List.all_eq_true] at hfin
  have hres : ∀ th ∈ l, ∀ r, th.result = some r → th.pc = .retActive r := by
    intro th hth r hr
    rcases (hpc th hth).2 with h | h | ⟨r1, h⟩
    · simp [Call.result, h] at hr
    · simp [Call.result, h] at hr
    · simp only [Call.result, h, Option.some.injEq] at hr
      rw [h, hr]
  have hall : countCalls Call.added l = l.length := by
    apply countCalls_eq_length
    intro th hth
    have hret := hfin th hth
    rcases (hpc th hth).2 with h | h | ⟨r1, h⟩
    · simp [Call.returned, h] at hret
    · simp [Call.returned, h] at hret
    · simp [Call.added, h]
  rw [hall, hlen] at hcount hmax
  refine ⟨?_, ?_, ?_, hcount⟩
  · obtain ⟨i, th, hi, hr⟩ := hmax hk
    refine ⟨i, th, hi, ?_⟩
    simp only [Call.result, hr, hcount]
  · intro i th r hi hr
    have := (hrange i th r hi (hres th (List.getElem?_mem hi) r hr)).2
    omega
  · intro i j thi thj r hne hi hj hr hr2
    exact hdist i j thi thj r hne hi hj (hres thi (List.getElem?_mem hi) r hr)
      (hres thj (List.getElem?_mem hj) r hr2)

/-- C14, amended, at an input: three calls at 1 ns, 2 ns, 3 ns in a window that ends at
10 ns and holds a count of 7, the second call adding first. -/
theorem concurrent_active_window_witness :
    (∃ (i : Nat) (th : Call),
      (run (⟨10, 7⟩, [⟨⟨1⟩, ⟨5⟩, .load⟩, ⟨⟨2⟩, ⟨5⟩, .load⟩, ⟨⟨3⟩, ⟨5⟩, .load⟩])
        [0, 1, 2, 1, 2, 0]).2[i]? = some th ∧
      th.result = some (7 + 3)) ∧
    (∀ (i : Nat) (th : Call) (r : Nat),
      (run (⟨10, 7⟩, [⟨⟨1⟩, ⟨5⟩, .load⟩, ⟨⟨2⟩, ⟨5⟩, .load⟩, ⟨⟨3⟩, ⟨5⟩, .load⟩])
        [0, 1, 2, 1, 2, 0]).2[i]? = some th →
      th.result = some r → r ≤ 7 + 3) ∧
    (∀ (i j : Nat) (thi thj : Call) (r : Nat), i ≠ j →
      (run (⟨10, 7⟩, [⟨⟨1⟩, ⟨5⟩, .load⟩, ⟨⟨2⟩, ⟨5⟩, .load⟩, ⟨⟨3⟩, ⟨5⟩, .load⟩])
        [0, 1, 2, 1, 2, 0]).2[i]? = some thi →
      (run (⟨10, 7⟩, [⟨⟨1⟩, ⟨5⟩, .load⟩, ⟨⟨2⟩, ⟨5⟩, .load⟩, ⟨⟨3⟩, ⟨5⟩, .load⟩])
        [0, 1, 2, 1, 2, 0]).2[j]? = some thj →
      thi.result = some r → thj.result ≠ some r) ∧
    (run (⟨10, 7⟩, [⟨⟨1⟩, ⟨5⟩, .load⟩, ⟨⟨2⟩, ⟨5⟩, .load⟩, ⟨⟨3⟩, ⟨5⟩, .load⟩])
      [0, 1, 2, 1, 2, 0]).1.counter = 7 + 3 :=
  concurrent_active_window ⟨10, 7⟩
    [⟨⟨1⟩, ⟨5⟩, .load⟩, ⟨⟨2⟩, ⟨5⟩, .load⟩, ⟨⟨3⟩, ⟨5⟩, .load⟩] [0, 1, 2, 1, 2, 0]
    (by decide) (by decide) (by decide) (by decide) (by decide)

/-! ## Interleaved calls racing to reset an expired window -/

theorem mem_set_self (l : List Call) (i : Nat) (x y : Call) (h : l[i]? = some y) :
    x ∈ l.set i x :=
  List.getElem?_mem (List.getElem?_set_self (lt_length_of_getElem? l i y h))

theorem mem_set_of_ne (l : List Call) (i : Nat) (x y a : Call) (h : l[i]? = some y)
    (ha : a ∈ l) (hne : a ≠ y) : a ∈ l.set i x := by
  obtain ⟨j, hj⟩ := List.getElem?_of_mem ha
  have hij : i ≠ j := by
    intro e
    subst e
    rw [h] at hj
    exact hne (Option.some.inj hj).symm
  exact List.getElem?_mem (by rw [List.getElem?_set_ne hij]; exact hj)

/-- The five counts of `RaceInv` after a call has been replaced. -/
theorem race_counts_set (l : List Call) (i : Nat) (x y : Call) (h : l[i]? = some y) :
    countCalls Call.atStore (l.set i x) + (if y.atStore then 1 else 0) =
      countCalls Call.atStore l + (if x.atStore then 1 else 0) ∧
    countCalls Call.atCas (l.set i x) + (if y.atCas then 1 else 0) =
      countCalls Call.atCas l + (if x.atCas then 1 else 0) ∧
    countCalls Call.atAddLost (l.set i x) + (if y.atAddLost then 1 else 0) =
      countCalls Call.atAddLost l + (if x.atAddLost then 1 else 0) ∧
    countCalls Call.lost (l.set i x) + (if y.lost then 1 else 0) =
      countCalls Call.lost l + (if x.lost then 1 else 0) ∧
    countCalls Call.won (l.set i x) + (if y.won then 1 else 0) =
      countCalls Call.won l + (if x.won then 1 else 0) :=
  ⟨countCalls_set _ l i x y h, countCalls_set _ l i x y h, countCalls_set _ l i x y h,
    countCalls_set _ l i x y h, countCalls_set _ l i x y h⟩

/-- The atomic steps of racing calls keep `RaceInv`. -/
theorem RaceInv_step (R : Int) (k : Nat) (hk : k < 2 ^ 64) (cfg : Config) (i : Nat)
    (th : Call) (hinv : RaceInv R k cfg) (hi : cfg.2[i]? = some th) :
    RaceInv R k ((stepCall cfg.1 th).1, cfg.2.set i (stepCall cfg.1 th).2) := by
  obtain ⟨c, l⟩ := cfg
  obtain ⟨hlen, hrac, hpart, hwin, hcnt, hexact, hend⟩ := hinv
  simp only at hlen hrac hpart hwin hcnt hexact hend hi
  obtain ⟨hcase, hnew⟩ := hrac th (List.getElem?_mem hi)
  obtain ⟨t, tick, pc⟩ := th
  simp only at hcase
  have hkeep : ∀ x : Call, x.pc ≠ .retWon → pc ≠ .retWon →
      (c.resetAt = R ∨ ∃ w ∈ l, w.pc = .retWon ∧ c.resetAt = w.newResetAfter) →
      (c.resetAt = R ∨ ∃ w ∈ l.set i x, w.pc = .retWon ∧ c.resetAt = w.newResetAfter) := by
    intro x _ hy h
    rcases h with h | ⟨w, hw, hpcw, hrw⟩
    · exact Or.inl h
    · refine Or.inr ⟨w, mem_set_of_ne l i x _ w hi hw ?_, hpcw, hrw⟩
      intro e
      rw [e] at hpcw
      exact hy hpcw
  rcases hcase with h | h | h | ⟨r0, h⟩ | h
  · -- the store of line 25
    subst h
    have hstep : stepCall c ⟨t, tick, .store R⟩ = (⟨c.resetAt, 1⟩, ⟨t, tick, .cas R⟩) := by
      simp [stepCall, counterStore, wrapUint64]
    obtain ⟨e1, e2, e3, e4, e5⟩ := race_counts_set l i ⟨t, tick, .cas R⟩ ⟨t, tick, .store R⟩ hi
    simp only [Call.atStore, Call.atCas, Call.atAddLost, Call.lost, Call.won, if_true,
      Bool.false_eq_true, if_false, Nat.add_zero] at e1 e2 e3 e4 e5
    rw [hstep]
    refine ⟨by simpa using hlen, ?_, ?_, ?_, ?_, ?_, hkeep ⟨t, tick, .cas R⟩ (by simp) (by simp) hend⟩
    · intro th hth
      rcases mem_of_mem_set l i _ th hth with h1 | h1
      · exact hrac th h1
      · subst h1
        exact ⟨Or.inr (Or.inl rfl), hnew⟩
    · clear hend hkeep
      simp only
      omega
    · clear hend hkeep
      simp only
      omega
    · clear hend hkeep
      simp only
      omega
    · clear hend hkeep
      simp only
      omega
  · -- the compare-and-swap of line 28
    subst h
    by_cases hc : c.resetAt = R
    · have hstep : stepCall c ⟨t, tick, .cas R⟩ =
          (⟨wrapInt64 (t.UnixNano + tick.Nanoseconds), c.counter⟩, ⟨t, tick, .retWon⟩) := by
        simp [stepCall, resetAtCompareAndSwap, hc]
      obtain ⟨e1, e2, e3, e4, e5⟩ :=
        race_counts_set l i ⟨t, tick, .retWon⟩ ⟨t, tick, .cas R⟩ hi
      simp only [Call.atStore, Call.atCas, Call.atAddLost, Call.lost, Call.won, if_true,
        Bool.false_eq_true, if_false, Nat.add_zero] at e1 e2 e3 e4 e5
      have hnew1 : wrapInt64 (t.UnixNano + tick.Nanoseconds) ≠ R := hnew
      rw [hstep]
      refine ⟨by simpa using hlen, ?_, ?_, ?_, ?_, ?_, ?_⟩
      · intro th hth
        rcases mem_of_mem_set l i _ th hth with h1 | h1
        · exact hrac th h1
        · subst h1
          exact ⟨Or.inr (Or.inr (Or.inr (Or.inr rfl))), hnew⟩
      · clear hend hkeep
        simp only
        omega
      · simp only
        right
        exact ⟨hnew1, by clear hend hkeep; omega⟩
      · clear hend hkeep
        simp only
        omega
      · clear hend hkeep
        simp only
        omega
      · exact Or.inr ⟨_, mem_set_self l i _ _ hi, rfl, rfl⟩
    · have hstep : stepCall c ⟨t, tick, .cas R⟩ = (c, ⟨t, tick, .addLost⟩) := by
        simp [stepCall, resetAtCompareAndSwap, hc]
      obtain ⟨e1, e2, e3, e4, e5⟩ :=
        race_counts_set l i ⟨t, tick, .addLost⟩ ⟨t, tick, .cas R⟩ hi
      simp only [Call.atStore, Call.atCas, Call.atAddLost, Call.lost, Call.won, if_true,
        Bool.false_eq_true, if_false, Nat.add_zero] at e1 e2 e3 e4 e5
      rw [hstep]
      refine ⟨by simpa using hlen, ?_, ?_, ?_, ?_, ?_, hkeep ⟨t, tick, .addLost⟩ (by simp) (by simp) hend⟩
      · intro th hth
        rcases mem_of_mem_set l i _ th hth with h1 | h1
        · exact hrac th h1
        · subst h1
          exact ⟨Or.inr (Or.inr (Or.inl rfl)), hnew⟩
      · clear hend hkeep
        simp only
        omega
      · clear hend hkeep
        simp only
        omega
      · clear hend hkeep
        simp only
        omega
      · clear hend hkeep
        simp only
        omega
  · -- the compensating add of line 31
    subst h
    obtain ⟨e1, e2, e3, e4, e5⟩ := race_counts_set l i
      ⟨t, tick, .retLost (wrapUint64 (c.counter + 1))⟩ ⟨t, tick, .addLost⟩ hi
    simp only [Call.atStore, Call.atCas, Call.atAddLost, Call.lost, Call.won, if_true,
      Bool.false_eq_true, if_false, Nat.add_zero] at e1 e2 e3 e4 e5
    have hw : wrapUint64 (c.counter + 1) = c.counter + 1 := by
      clear hend hkeep
      unfold wrapUint64
      omega
    have hstep : stepCall c ⟨t, tick, .addLost⟩ =
        (⟨c.resetAt, c.counter + 1⟩, ⟨t, tick, .retLost (c.counter + 1)⟩) := by
      simp [stepCall, counterAdd, hw]
    rw [hw] at e1 e2 e3 e4 e5
    rw [hstep]
    refine ⟨by simpa using hlen, ?_, ?_, ?_, ?_, ?_, hkeep ⟨t, tick, .retLost (c.counter + 1)⟩ (by simp) (by simp) hend⟩
    · intro th hth
      rcases mem_of_mem_set l i _ th hth with h1 | h1
      · exact hrac th h1
      · subst h1
        exact ⟨Or.inr (Or.inr (Or.inr (Or.inl ⟨_, rfl⟩))), hnew⟩
    · clear hend hkeep
      simp only
      omega
    · clear hend hkeep
      simp only
      omega
    · clear hend hkeep
      simp only
      omega
    · clear hend hkeep
      simp only
      omega
  · -- the call has returned from the compensating add
    have hstep : stepCall c ⟨t, tick, pc⟩ = (c, ⟨t, tick, pc⟩) :=
      stepCall_of_returned c _ (by simp [Call.returned, h])
    rw [hstep]
    simp only [set_of_getElem? l i _ hi]
    exact ⟨hlen, hrac, hpart, hwin, hcnt, hexact, hend⟩
  · -- the call has returned as the winner
    have hstep : stepCall c ⟨t, tick, pc⟩ = (c, ⟨t, tick, pc⟩) :=
      stepCall_of_returned c _ (by simp [Call.returned, h])
    rw [hstep]
    simp only [set_of_getElem? l i _ hi]
    exact ⟨hlen, hrac, hpart, hwin, hcnt, hexact, hend⟩

/-- Calls that have all observed the expired window end and stand before their store
satisfy `RaceInv`. -/
theorem RaceInv_init (c : counter) (calls : List Call)
    (hobs : ∀ th ∈ calls, th.pc = .store c.resetAt)
    (hnew : ∀ th ∈ calls, th.newResetAfter ≠ c.resetAt) :
    RaceInv c.resetAt calls.length (c, calls) := by
  have hS : countCalls Call.atStore calls = calls.length :=
    countCalls_eq_length _ _ (fun th hth => by simp [Call.atStore, hobs th hth])
  have hC : countCalls Call.atCas calls = 0 :=
    countCalls_eq_zero _ _ (fun th hth => by simp [Call.atCas, hobs th hth])
  have hL : countCalls Call.atAddLost calls = 0 :=
    countCalls_eq_zero _ _ (fun th hth => by simp [Call.atAddLost, hobs th hth])
  have hD : countCalls Call.lost calls = 0 :=
    countCalls_eq_zero _ _ (fun th hth => by simp [Call.lost, hobs th hth])
  have hW : countCalls Call.won calls = 0 :=
    countCalls_eq_zero _ _ (fun th hth => by simp [Call.won, hobs th hth])
  refine ⟨rfl, fun th hth => ⟨Or.inl (hobs th hth), hnew th hth⟩, ?_, ?_, ?_, ?_, Or.inl rfl⟩
  · simp only [hS, hC, hL, hD, hW]
    omega
  · exact Or.inl ⟨rfl, hW, hL, hD⟩
  · exact Or.inl hS
  · intro h1 _ h0
    simp only [hS] at h0
    omega

/-! ## Further properties of the specification: concurrent calls -/

set_option maxRecDepth 100000 in
/-- C13, as stated, fails in three ways, each an interleaving of calls on a fresh
counter. Three calls at the epoch with a tick of 1 µs all observe the expired window;
one wins, and the store of the third erases the compensating add of the second: the
count ends at 2 after three calls. With a tick of zero two calls at the epoch both win
the compare-and-swap. With two racing calls and a third that arrives in the new window
between the winning reset and the store of the loser, the count ends at 2 after three
calls. -/
theorem concurrent_reset_loses_increment :
    (run (freshCounter, [⟨⟨0⟩, ⟨1000⟩, .load⟩, ⟨⟨0⟩, ⟨1000⟩, .load⟩, ⟨⟨0⟩, ⟨1000⟩, .load⟩])
      [0, 1, 2]).2.map Call.pc = [.store 0, .store 0, .store 0] ∧
    (run (freshCounter, [⟨⟨0⟩, ⟨1000⟩, .load⟩, ⟨⟨0⟩, ⟨1000⟩, .load⟩, ⟨⟨0⟩, ⟨1000⟩, .load⟩])
      [0, 1, 2, 0, 0, 1, 1, 1, 2, 2, 2]).2.map Call.pc =
        [.retWon, .retLost 2, .retLost 2] ∧
    (run (freshCounter, [⟨⟨0⟩, ⟨1000⟩, .load⟩, ⟨⟨0⟩, ⟨1000⟩, .load⟩, ⟨⟨0⟩, ⟨1000⟩, .load⟩])
      [0, 1, 2, 0, 0, 1, 1, 1, 2, 2, 2]).1 = ⟨1000, 2⟩ ∧
    (run (freshCounter, [⟨⟨0⟩, ⟨0⟩, .load⟩, ⟨⟨0⟩, ⟨0⟩, .load⟩]) [0, 1]).2.map Call.pc =
      [.store 0, .store 0] ∧
    (run (freshCounter, [⟨⟨0⟩, ⟨0⟩, .load⟩, ⟨⟨0⟩, ⟨0⟩, .load⟩])
      [0, 1, 0, 0, 1, 1]).2.map Call.pc = [.retWon, .retWon] ∧
    (run (freshCounter, [⟨⟨0⟩, ⟨1000⟩, .load⟩, ⟨⟨0⟩, ⟨1000⟩, .load⟩, ⟨⟨5⟩, ⟨1000⟩, .load⟩])
      [0, 1, 0, 0, 2, 2, 1, 1, 1]).2.map Call.pc =
        [.retWon, .retLost 2, .retActive 2] ∧
    (run (freshCounter, [⟨⟨0⟩, ⟨1000⟩, .load⟩, ⟨⟨0⟩, ⟨1000⟩, .load⟩, ⟨⟨5⟩, ⟨1000⟩, .load⟩])
      [0, 1, 0, 0, 2, 2, 1, 1, 1]).1 = ⟨1000, 2⟩ := by
  decide

/-- C13, amended: under any interleaving of `k` concurrent calls of `Inc`,
`1 ≤ k < 2 ^ 64`, that have all observed the same expired window end and would each
store a window end different from it (as with a tick > 0 that does not overflow), once
all have returned: exactly one call won the compare-and-swap, the window end is the one
stored by a call that won, the count is at least 1 and at most `k`, and it is `k` when
`k ≤ 2`. -/
theorem concurrent_reset_race (c : counter) (calls : List Call) (schedule : List Nat)
    (hobs : ∀ th ∈ calls, th.pc = .store c.resetAt)
    (_hexp : ∀ th ∈ calls, c.resetAt ≤ th.t.UnixNano)
    (hnew : ∀ th ∈ calls, th.newResetAfter ≠ c.resetAt)
    (hk : 1 ≤ calls.length) (hk2 : calls.length < 2 ^ 64)
    (hfin : finished (run (c, calls) schedule) = true) :
    countCalls Call.won (run (c, calls) schedule).2 = 1 ∧
    (∃ th ∈ (run (c, calls) schedule).2, th.pc = .retWon ∧
      (run (c, calls) schedule).1.resetAt = th.newResetAfter) ∧
    1 ≤ (run (c, calls) schedule).1.counter ∧
    (run (c, calls) schedule).1.counter ≤ calls.length ∧
    (calls.length ≤ 2 → (run (c, calls) schedule).1.counter = calls.length) := by
  have hinv := run_invariant (RaceInv c.resetAt calls.length)
    (fun cfg i th h hi => RaceInv_step _ _ hk2 cfg i th h hi) schedule (c, calls)
    (RaceInv_init c calls hobs hnew)
  generalize run (c, calls) schedule = cfg at hinv hfin
  obtain ⟨cF, l⟩ := cfg
  obtain ⟨hlen, hrac, hpart, hwin, hcnt, hexact, hend⟩ := hinv
  simp only at hlen hrac hpart hwin hcnt hexact hend
  simp only [finished, List.all_eq_true] at hfin
  have hdone : ∀ th ∈ l, (∃ r, th.pc = .retLost r) ∨ th.pc = .retWon := by
    intro th hth
    have hret := hfin th hth
    rcases (hrac th hth).1 with h | h | h | h | h
    · simp [Call.returned, h] at hret
    · simp [Call.returned, h] at hret
    · simp [Call.returned, h] at hret
    · exact Or.inl h
    · exact Or.inr h
  have hS : countCalls Call.atStore l = 0 :=
    countCalls_eq_zero _ _ (fun th hth => by
      rcases hdone th hth with ⟨r, h⟩ | h <;> simp [Call.atStore, h])
  have hC : countCalls Call.atCas l = 0 :=
    countCalls_eq_zero _ _ (fun th hth => by
      rcases hdone th hth with ⟨r, h⟩ | h <;> simp [Call.atCas, h])
  have hL : countCalls Call.atAddLost l = 0 :=
    countCalls_eq_zero _ _ (fun th hth => by
      rcases hdone th hth with ⟨r, h⟩ | h <;> simp [Call.atAddLost, h])
  have hW : countCalls Call.won l = 1 := by
    clear hend
    omega
  refine ⟨hW, ?_, ?_, ?_, ?_⟩
  · rcases hend with h | h
    · clear hdone hrac hfin
      omega
    · exact h
  · clear hend
    simp only
    omega
  · clear hend
    simp only
    omega
  · clear hend
    intro h2
    simp only
    omega

/-- C13, amended, at an input: two calls at the epoch with a tick of 1 µs on a fresh
counter, both before their store; the first wins, the second adds. -/
theorem concurrent_reset_race_witness :
    countCalls Call.won (run (freshCounter,
      [⟨⟨0⟩, ⟨1000⟩, .store 0⟩, ⟨⟨0⟩, ⟨1000⟩, .store 0⟩]) [0, 1, 0, 1, 1]).2 = 1 ∧
    (∃ th ∈ (run (freshCounter,
        [⟨⟨0⟩, ⟨1000⟩, .store 0⟩, ⟨⟨0⟩, ⟨1000⟩, .store 0⟩]) [0, 1, 0, 1, 1]).2,
      th.pc = .retWon ∧
      (run (freshCounter,
        [⟨⟨0⟩, ⟨1000⟩, .store 0⟩, ⟨⟨0⟩, ⟨1000⟩, .store 0⟩]) [0, 1, 0, 1, 1]).1.resetAt =
          th.newResetAfter) ∧
    1 ≤ (run (freshCounter,
      [⟨⟨0⟩, ⟨1000⟩, .store 0⟩, ⟨⟨0⟩, ⟨1000⟩, .store 0⟩]) [0, 1, 0, 1, 1]).1.counter ∧
    (run (freshCounter,
      [⟨⟨0⟩, ⟨1000⟩, .store 0⟩, ⟨⟨0⟩, ⟨1000⟩, .store 0⟩]) [0, 1, 0, 1, 1]).1.counter ≤
        [Call.mk ⟨0⟩ ⟨1000⟩ (.store 0), ⟨⟨0⟩, ⟨1000⟩, .store 0⟩].length ∧
    ([Call.mk ⟨0⟩ ⟨1000⟩ (.store 0), ⟨⟨0⟩, ⟨1000⟩, .store 0⟩].length ≤ 2 →
      (run (freshCounter,
        [⟨⟨0⟩, ⟨1000⟩, .store 0⟩, ⟨⟨0⟩, ⟨1000⟩, .store 0⟩]) [0, 1, 0, 1, 1]).1.counter =
          [Call.mk ⟨0⟩ ⟨1000⟩ (.store 0), ⟨⟨0⟩, ⟨1000⟩, .store 0⟩].length) :=
  concurrent_reset_race freshCounter
    [⟨⟨0⟩, ⟨1000⟩, .store 0⟩, ⟨⟨0⟩, ⟨1000⟩, .store 0⟩] [0, 1, 0, 1, 1]
    (by decide) (by decide) (by decide) (by decide) (by decide) (by decide)

end SlogSampling
